import Mathlib

/-!
Verification of the ddb orchestration core (`ddb/__main__.py` and the
shell/core feature actions) against its specification.

The Python source is shallowly embedded: pure functions become Lean
functions, imperative loops become recursions or folds, raised exceptions
become `Except`/`Option` results, and side-effecting lifecycle hooks are
recorded as explicit trace events.  Python strings are modelled as lists of
Unicode code points (`PyStr := List Nat`), byte strings as lists of byte
values.
-/

/-! ## Command-line pipeline: `handle_command_line` and `console_script` -/

/-- Exceptions that `execute_command` may raise while the selected command
runs: the `RestartWithArgs` control-flow signal (carrying the substitute
argument set) or any other failure. `α` is the type of parsed argument
sets (`config.args`). -/
inductive CommandExc (α : Type) where
  | restartWithArgs (restart_args : α)
  | failure (message : String)
deriving DecidableEq

/-- What the command-execution block of `handle_command_line` ends with:
normal completion, or an exception that escaped the block. -/
inductive RunOutcome (α : Type) where
  | completed
  | uncaught (exc : CommandExc α)
deriving DecidableEq

/-- Observable behaviour of one `handle_command_line` invocation: the
argument sets passed to each `execute_command` call, in order, and the
final outcome. -/
structure RunResult (α : Type) where
  executions : List α
  outcome : RunOutcome α
deriving DecidableEq

/-- Embeds the command-execution block of `handle_command_line`
(`src/ddb/__main__.py:221-225`): `execute_command(command)` runs inside a
`try` whose sole `except RestartWithArgs` clause substitutes
`config.args = exc.restart_args` and calls `execute_command(command)` a
second time, outside any handler.  `execute_command` itself lives outside
the embedded sources and is taken as a parameter giving each call's
result. -/
def handle_command_line {α : Type} (execute_command : α → Except (CommandExc α) Unit)
    (args : α) : RunResult α :=
  match execute_command args with
  | .ok _ => { executions := [args], outcome := .completed }
  | .error (.restartWithArgs restart_args) =>
      match execute_command restart_args with
      | .ok _ => { executions := [args, restart_args], outcome := .completed }
      | .error exc => { executions := [args, restart_args], outcome := .uncaught exc }
  | .error exc => { executions := [args], outcome := .uncaught exc }

/-- Exit behaviour of the console entry point: an explicit `sys.exit`
with a status, or falling off the end of the function (exit status 0). -/
inductive ExitBehavior where
  | exit (status : Nat)
  | normalReturn
deriving DecidableEq

/-- Embeds `console_script` (`src/ddb/__main__.py:299-305`): `main` returns
the process-wide `context.exceptions` list, and `sys.exit(1)` runs iff
that list is truthy (non-empty). -/
def console_script (exceptions : List String) : ExitBehavior :=
  if exceptions.isEmpty then .normalReturn else .exit 1

/-- A command whose every execution raises the restart signal, asking to be
re-run with the argument set increased by one. -/
def execAlwaysRestart : Nat → Except (CommandExc Nat) Unit :=
  fun n => .error (.restartWithArgs (n + 1))

/-! ## Features, actions and registries -/

/-- One item of an `event_bindings` sequence: a plain event name, or an
`(event name, method name)` pair. -/
inductive EventBindingItem where
  | str (event_name : String)
  | pair (event_name method_name : String)
deriving DecidableEq

/-- The shape of an action's `event_bindings` property: a single string, or
a sequence of items (`src/ddb/__main__.py:237-255` dispatches on this). -/
inductive EventBindings where
  | single (event_name : String)
  | list (items : List EventBindingItem)
deriving DecidableEq

/-- An action as the orchestration core sees it: unique `name`, integer
`order` (lower runs first), resolved `disabled` flag, and its
`event_bindings`. -/
structure DdbAction where
  name : String
  order : Int
  disabled : Bool
  event_bindings : EventBindings
deriving DecidableEq

/-- A feature as the orchestration core sees it: its unique `name`, declared
`dependencies` (each name optionally carrying the `[optional]` suffix), the
`disabled` flag as resolved by `configure()`, and the objects it contributes
when enabled. -/
structure Feature where
  name : String
  dependencies : List String
  disabled : Bool
  phases : List String
  commands : List String
  actions : List DdbAction
  binaries : List String
  services : List String
deriving DecidableEq

/-- Modelled from the spec: `Registry.register` (the registry class itself is
not among the embedded sources) — a registry "rejects duplicate names"
(`DuplicateNameError`), and a successful registration appends the object. -/
def Registry.register {α : Type} (nameOf : α → String) (reg : List α) (obj : α) :
    Except String (List α) :=
  if reg.any (fun o => nameOf o == nameOf obj) then
    .error ("DuplicateNameError: " ++ nameOf obj)
  else
    .ok (reg ++ [obj])

/-- Embeds `register_objects` (`src/ddb/__main__.py:145-158`): the first loop
extends `all_objects` with each feature's objects, the second registers each
collected object into the (initially empty) registry. -/
def register_objects {α : Type} (nameOf : α → String) (features_list : List Feature)
    (objects_getter : Feature → List α) : Except String (List α) :=
  let all_objects := features_list.foldl (fun acc feature => acc ++ objects_getter feature) []
  all_objects.foldlM (Registry.register nameOf) []

/-- Kinds of global registries populated during feature load. -/
inductive RegistryKind where
  | phase
  | command
  | action
  | binary
  | service
deriving DecidableEq

/-- One observable side effect of `load_registered_features`: a lifecycle
hook call on a feature, or a registration into one of the global
registries. -/
inductive LifecycleEvent where
  | beforeLoad (feature : String)
  | configure (feature : String)
  | registerObject (kind : RegistryKind) (objectName : String)
  | afterLoad (feature : String)
deriving DecidableEq

/-- The `for feature in all_features: feature.before_load()` loop
(`src/ddb/__main__.py:167-168`): one trace event per hook call, in list
order. -/
def beforeLoadLoop : List Feature → List LifecycleEvent
  | [] => []
  | f :: fs => .beforeLoad f.name :: beforeLoadLoop fs

/-- The `for feature in all_features: feature.configure()` loop
(`src/ddb/__main__.py:170-171`). -/
def configureLoop : List Feature → List LifecycleEvent
  | [] => []
  | f :: fs => .configure f.name :: configureLoop fs

/-- The `for feature in enabled_features: feature.after_load()` loop
(`src/ddb/__main__.py:181-182`). -/
def afterLoadLoop : List Feature → List LifecycleEvent
  | [] => []
  | f :: fs => .afterLoad f.name :: afterLoadLoop fs

/-- Result of a successful `load_registered_features` run: the ordered trace
of observable side effects, the enabled features it returns, and the final
contents of the five global registries. -/
structure LoadResult where
  trace : List LifecycleEvent
  enabled_features : List Feature
  phases : List String
  commands : List String
  actions : List DdbAction
  binaries : List String
  services : List String
deriving DecidableEq

/-- Embeds `load_registered_features` (`src/ddb/__main__.py:161-184`):
`before_load()` on every registered feature, `configure()` on every
registered feature, then registration of the phases, commands, non-disabled
actions, binaries and services of the enabled (not `disabled`) features into
their registries, then `after_load()` on every enabled feature.  A
registration error aborts the whole load. -/
def load_registered_features (all_features : List Feature) : Except String LoadResult := do
  let enabled_features := all_features.filter (fun f => !f.disabled)
  let phases ← register_objects (fun s => s) enabled_features (fun f => f.phases)
  let commands ← register_objects (fun s => s) enabled_features (fun f => f.commands)
  let actions ← register_objects DdbAction.name enabled_features
      (fun f => f.actions.filter (fun a => !a.disabled))
  let binaries ← register_objects (fun s => s) enabled_features (fun f => f.binaries)
  let services ← register_objects (fun s => s) enabled_features (fun f => f.services)
  return {
    trace := beforeLoadLoop all_features ++ configureLoop all_features
      ++ phases.map (.registerObject .phase)
      ++ commands.map (.registerObject .command)
      ++ actions.map (fun a => .registerObject .action a.name)
      ++ binaries.map (.registerObject .binary)
      ++ services.map (.registerObject .service)
      ++ afterLoadLoop enabled_features
    enabled_features := enabled_features
    phases := phases
    commands := commands
    actions := actions
    binaries := binaries
    services := services }

/-- Position of a lifecycle event in the load sequence's four steps. -/
def lifecycleStep : LifecycleEvent → Nat
  | .beforeLoad _ => 0
  | .configure _ => 1
  | .registerObject _ _ => 2
  | .afterLoad _ => 3

/-- A concrete enabled action (the core feature's `ListFeaturesAction`,
whose `event_bindings` is the single string `"phase:info"`). -/
def sampleActionInfo : DdbAction :=
  { name := "core:list-features", order := 0, disabled := false,
    event_bindings := .single "phase:info" }

/-- A concrete disabled action. -/
def sampleActionOff : DdbAction :=
  { name := "other:off", order := 2, disabled := true, event_bindings := .list [] }

/-- A concrete enabled feature contributing one enabled and one disabled
action. -/
def sampleFeatureAlpha : Feature :=
  { name := "alpha", dependencies := [], disabled := false, phases := ["info"],
    commands := ["run"], actions := [sampleActionInfo, sampleActionOff],
    binaries := [], services := [] }

/-- A concrete disabled feature. -/
def sampleFeatureBeta : Feature :=
  { name := "beta", dependencies := [], disabled := true, phases := ["x"],
    commands := [], actions := [sampleActionInfo], binaries := [], services := [] }

/-- Two concrete features exercising the load lifecycle. -/
def sampleFeatures : List Feature :=
  [sampleFeatureAlpha, sampleFeatureBeta]

/-- The load result `load_registered_features` produces on `sampleFeatures`. -/
def sampleLoadResult : LoadResult :=
  { trace := [.beforeLoad "alpha", .beforeLoad "beta", .configure "alpha", .configure "beta",
      .registerObject .phase "info", .registerObject .command "run",
      .registerObject .action "core:list-features", .afterLoad "alpha"],
    enabled_features := [sampleFeatureAlpha],
    phases := ["info"], commands := ["run"], actions := [sampleActionInfo],
    binaries := [], services := [] }

/-! ## Feature graph resolution: `register_features` -/

/-- Python dict assignment `d[k] = v` on an insertion-ordered dictionary:
replaces the value in place when the key exists (keeping its position),
appends otherwise. -/
def dictSet {α : Type} (d : List (String × α)) (k : String) (v : α) : List (String × α) :=
  if d.any (fun p => p.1 == k) then
    d.map (fun p => if p.1 == k then (k, v) else p)
  else
    d ++ [(k, v)]

/-- The dict comprehension `{f.name: f for f in default_features}` followed by
the entry-point loop `entrypoint_features[feature.name] = feature`
(`src/ddb/__main__.py:73-76`); externally discovered features win on name
collision. -/
def entrypointFeaturesDict (default_features entry_point_features : List Feature) :
    List (String × Feature) :=
  (default_features ++ entry_point_features).foldl (fun d f => dictSet d f.name f) []

/-- Python `set.add` on an insertion-ordered model of a set: append the
element unless already present. -/
def depSetAdd (s : List String) (x : String) : List String :=
  if s.contains x then s else s ++ [x]

/-- Whether `k` is a key of the dictionary (`k in d.keys()`). -/
def isKey {α : Type} (d : List (String × α)) (k : String) : Bool :=
  d.any (fun p => p.1 == k)

/-- The inner loop of `_prepare_dependencies_data`
(`src/ddb/__main__.py:105-110`): walk one feature's `dependencies`,
collecting the required (non-`[optional]`) items in order and the
suffix-stripped dependency set. -/
def _prepare_feature_dependencies (deps req depset : List String) :
    List String × List String :=
  match deps with
  | [] => (req, depset)
  | dependency_item :: rest =>
      if !dependency_item.endsWith "[optional]" then
        _prepare_feature_dependencies rest (req ++ [dependency_item])
          (depSetAdd depset dependency_item)
      else
        _prepare_feature_dependencies rest req
          (depSetAdd depset (dependency_item.dropRight 10))

/-- Embeds `_prepare_dependencies_data` (`src/ddb/__main__.py:96-114`):
returns `(required_dependencies, toposort_data)`, both keyed in feature-dict
iteration order. -/
def _prepare_dependencies_data (entrypoint_features : List (String × Feature)) :
    List (String × List String) × List (String × List String) :=
  match entrypoint_features with
  | [] => ([], [])
  | (name, feat) :: rest =>
      let fd := _prepare_feature_dependencies feat.dependencies [] []
      let r := _prepare_dependencies_data rest
      ((name, fd.1) :: r.1, (name, fd.2) :: r.2)

/-- The `ValueError` message raised for a missing required dependency
(`src/ddb/__main__.py:124-125`). -/
def missingDependencyMessage (name required_dependency : String) : String :=
  "A required dependency is missing for " ++ name ++ " feature (" ++
    required_dependency ++ ")"

/-- The inner loop of `_check_missing_dependencies`
(`src/ddb/__main__.py:122-125`) for one feature's required dependencies. -/
def _check_feature_dependencies (name : String)
    (entrypoint_features : List (String × Feature)) :
    List String → Except String Unit
  | [] => .ok ()
  | required_dependency :: rest =>
      if isKey entrypoint_features required_dependency then
        _check_feature_dependencies name entrypoint_features rest
      else
        .error (missingDependencyMessage name required_dependency)

/-- Embeds `_check_missing_dependencies` (`src/ddb/__main__.py:117-125`):
raise `ValueError` for the first feature (in dict order) with a required
dependency that is not a key of the feature mapping. -/
def _check_missing_dependencies (entrypoint_features : List (String × Feature)) :
    List (String × List String) → Except String Unit
  | [] => .ok ()
  | nr :: rest => do
      _check_feature_dependencies nr.1 entrypoint_features nr.2
      _check_missing_dependencies entrypoint_features rest

/-- `toposort_data[feat].add(feat_dependency)` (`src/ddb/__main__.py:87`):
add a dependency to the (present) entry of `feat`. -/
def dictAddDep (td : List (String × List String)) (feat dep : String) :
    List (String × List String) :=
  td.map (fun p => if p.1 == feat then (p.1, depSetAdd p.2 dep) else p)

/-- The `dependencies` override merge (`src/ddb/__main__.py:81-87`): each
override feature absent from `toposort_data` is first added with an empty
dependency set, then each of its override dependencies is added to its
set. -/
def mergeConfigDependencies (toposort_data : List (String × List String)) :
    List (String × List String) → List (String × List String)
  | [] => toposort_data
  | fd :: rest =>
      let td := if isKey toposort_data fd.1 then toposort_data
                else toposort_data ++ [(fd.1, [])]
      let td := fd.2.foldl (fun d dep => dictAddDep d fd.1 dep) td
      mergeConfigDependencies td rest

/-- Insertion into a lexicographically sorted list of strings. -/
def insertStr (x : String) : List String → List String
  | [] => [x]
  | y :: l => if x ≤ y then x :: y :: l else y :: insertStr x l

/-- Python `sorted` on a batch of feature names. -/
def sortStrs : List String → List String
  | [] => []
  | x :: l => insertStr x (sortStrs l)

/-- Modelled from the spec: the loop of the external `toposort` library's
generator (the library is a dependency, not a repository source) — repeatedly
emit the sorted batch of nodes with no remaining dependencies, remove them,
and fail with `CircularDependencyError` when no progress is possible on a
non-empty remainder. -/
def toposortLoop (data : List (String × List String)) : Except String (List String) :=
  let ordered := (data.filter (fun p => p.2.isEmpty)).map (fun p => p.1)
  if ordered.isEmpty then
    if data.isEmpty then .ok [] else .error "CircularDependencyError"
  else
    let rest := (data.filter (fun p => !ordered.contains p.1)).map
      (fun p => (p.1, p.2.filter (fun d => !ordered.contains d)))
    match toposortLoop rest with
    | .ok out => .ok (sortStrs ordered ++ out)
    | .error e => .error e
termination_by data.length
decreasing_by
  simp only [List.length_map]
  refine List.length_filter_lt_length_iff_exists.mpr ?_
  rcases List.exists_mem_of_ne_nil ordered (by simpa using ‹¬ordered.isEmpty = true›) with ⟨y, hy⟩
  rcases List.mem_map.1 hy with ⟨p, hp, rfl⟩
  exact ⟨p, (List.mem_filter.1 hp).1, by simp [List.elem_eq_mem, hy]⟩

/-- Modelled from the spec: `toposort_flatten(data, sort=True)` of the
external `toposort` library — self-dependencies are dropped, names appearing
only as dependencies are added as nodes with empty dependency sets, and the
batches are emitted sorted and concatenated. -/
def toposort_flatten (data : List (String × List String)) : Except String (List String) :=
  let d1 := data.map (fun p => (p.1, p.2.filter (fun x => x != p.1)))
  let extra := (d1.flatMap (fun p => p.2)).filter (fun x => !isKey d1 x)
  let d2 := extra.foldl (fun d x => if isKey d x then d else d ++ [(x, [])]) d1
  toposortLoop d2

/-- Embeds `register_features` (`src/ddb/__main__.py:67-93`): build the
feature dictionary, prepare the dependency data, check missing required
dependencies, merge the configuration `dependencies` overrides, topologically
sort, and register each sorted name that maps to a feature instance.
Returns the sorted feature names and the registered features. -/
def register_features (default_features entry_point_features : List Feature)
    (config_dependencies : List (String × List String)) :
    Except String (List String × List Feature) := do
  let entrypoint_features := entrypointFeaturesDict default_features entry_point_features
  let pre := _prepare_dependencies_data entrypoint_features
  _check_missing_dependencies entrypoint_features pre.1
  let toposort_data := mergeConfigDependencies pre.2 config_dependencies
  let sorted_feature_names ← toposort_flatten toposort_data
  let features_found := sorted_feature_names.filterMap
    (fun feature_name => (entrypoint_features.find? (fun p => p.1 == feature_name)).map
      (fun nf => nf.2))
  let registered ← features_found.foldlM (Registry.register Feature.name) []
  return (sorted_feature_names, registered)

/-- The startup sequence of `main` relevant to feature errors
(`src/ddb/__main__.py:262-265`): `register_features()` then
`load_registered_features()`; an error in the former prevents every
lifecycle hook of the latter. -/
def registerAndLoad (default_features entry_point_features : List Feature)
    (config_dependencies : List (String × List String)) : Except String LoadResult := do
  let rf ← register_features default_features entry_point_features config_dependencies
  load_registered_features rf.2

/-! ## Action binding: `register_actions_in_event_bus` -/

/-- Modelled from the spec: one subscription recorded by `bus.on` (the bus
and the runner factory are not among the embedded sources) — the runner is
bound to the action, the event name, an optional alternate method name and
the `fail_fast` policy, and the bus invokes handlers of an event in
registration order.  `action_index` is the position of the action in the
action registry, identifying which registered action the runner wraps. -/
structure BusSubscription where
  event_name : String
  action_name : String
  action_index : Nat
  action_order : Int
  method_name : Option String
  fail_fast : Bool
deriving DecidableEq

/-- The body of the `for action in sorted_actions` loop
(`src/ddb/__main__.py:236-255`): the subscriptions one action contributes,
in `bus.on` call order — a single-string `event_bindings` yields one
default-method runner; a sequence yields one runner per item, with the
method name taken from `(event name, method name)` pairs. -/
def actionBusSubscriptions (fail_fast : Bool) (idx : Nat) (action : DdbAction) :
    List BusSubscription :=
  match action.event_bindings with
  | .single event_name =>
      [{ event_name := event_name, action_name := action.name, action_index := idx,
         action_order := action.order, method_name := none, fail_fast := fail_fast }]
  | .list items =>
      items.map (fun event_binding =>
        match event_binding with
        | .str event_name =>
            { event_name := event_name, action_name := action.name, action_index := idx,
              action_order := action.order, method_name := none, fail_fast := fail_fast }
        | .pair event_name method_name =>
            { event_name := event_name, action_name := action.name, action_index := idx,
              action_order := action.order, method_name := some method_name,
              fail_fast := fail_fast })

/-- One insertion step of a stable insertion sort comparing only the
`order` key. -/
def insertByOrder (a : Nat × DdbAction) : List (Nat × DdbAction) → List (Nat × DdbAction)
  | [] => [a]
  | b :: l => if a.2.order ≤ b.2.order then a :: b :: l else b :: insertByOrder a l

/-- `sorted(actions.all(), key=lambda x: x.order)`
(`src/ddb/__main__.py:234`): Python's `sorted` is stable, modelled as a
stable insertion sort of the registry-indexed actions. -/
def sortActionsByOrder : List (Nat × DdbAction) → List (Nat × DdbAction)
  | [] => []
  | a :: l => insertByOrder a (sortActionsByOrder l)

/-- Embeds `register_actions_in_event_bus` (`src/ddb/__main__.py:230-255`):
the registered actions (paired with their registry positions) are stably
sorted by ascending `order` and each action's bindings are subscribed in
turn; the result is the bus subscription list in `bus.on` call order. -/
def register_actions_in_event_bus (fail_fast : Bool) (acts : List DdbAction) :
    List BusSubscription :=
  (sortActionsByOrder acts.enum).flatMap
    (fun ia => actionBusSubscriptions fail_fast ia.1 ia.2)

/-- A concrete feature declaring a required dependency that is never
registered. -/
def sampleFeatureGamma : Feature :=
  { name := "gamma", dependencies := ["delta"], disabled := false, phases := [],
    commands := [], actions := [], binaries := [], services := [] }

/-! ## Shell environ backup: `encode_environ_backup` / `decode_environ_backup`

Python strings are lists of Unicode code points (`List Nat`, values below
0x110000, surrogates included); byte strings are lists of byte values. -/

/-- One lowercase hexadecimal digit of `'\uXXXX' % code_point`. -/
def hexDigit (n : Nat) : Nat :=
  if n < 10 then 48 + n else 87 + n

/-- The four digits of `'\u%04x'`. -/
def hex4 (n : Nat) : List Nat :=
  [hexDigit (n / 4096 % 16), hexDigit (n / 256 % 16), hexDigit (n / 16 % 16),
   hexDigit (n % 16)]

/-- `json.dumps` escaping of one code point with `ensure_ascii=True`
(CPython `ESCAPE_DCT` plus the `\uXXXX`/surrogate-pair fallback): the seven
named escapes, printable ASCII kept literal, everything else escaped. -/
def escChar (c : Nat) : List Nat :=
  if c = 0x22 then [0x5C, 0x22]
  else if c = 0x5C then [0x5C, 0x5C]
  else if c = 0x08 then [0x5C, 0x62]
  else if c = 0x0C then [0x5C, 0x66]
  else if c = 0x0A then [0x5C, 0x6E]
  else if c = 0x0D then [0x5C, 0x72]
  else if c = 0x09 then [0x5C, 0x74]
  else if 0x20 ≤ c ∧ c ≤ 0x7E then [c]
  else if c < 0x10000 then 0x5C :: 0x75 :: hex4 c
  else 0x5C :: 0x75 :: hex4 (0xD800 + (c - 0x10000) / 0x400)
    ++ 0x5C :: 0x75 :: hex4 (0xDC00 + (c - 0x10000) % 0x400)

/-- Escaped body of a JSON string literal. -/
def escStr (s : List Nat) : List Nat :=
  s.flatMap escChar

/-- A JSON string literal: quote, escaped body, quote. -/
def jsonStringLit (s : List Nat) : List Nat :=
  0x22 :: escStr s ++ [0x22]

/-- The members of a dumped JSON object, joined with `", "` and separated
from their keys with `": "` (`json.dumps` default separators). -/
def dumpsPairs : List (List Nat × List Nat) → List Nat
  | [] => []
  | [(k, v)] => jsonStringLit k ++ 0x3A :: 0x20 :: jsonStringLit v
  | (k, v) :: rest => jsonStringLit k ++ 0x3A :: 0x20 :: jsonStringLit v
      ++ 0x2C :: 0x20 :: dumpsPairs rest

/-- `json.dumps` of a `dict[str, str]` with default arguments
(`ensure_ascii=True`): an insertion-ordered object of string members. -/
def json_dumps (d : List (List Nat × List Nat)) : List Nat :=
  0x7B :: dumpsPairs d ++ [0x7D]

/-- One hexadecimal digit as `int(c, 16)` accepts it. -/
def parseHexDigit (c : Nat) : Option Nat :=
  if 0x30 ≤ c ∧ c ≤ 0x39 then some (c - 0x30)
  else if 0x61 ≤ c ∧ c ≤ 0x66 then some (c - 0x57)
  else if 0x41 ≤ c ∧ c ≤ 0x46 then some (c - 0x37)
  else none

/-- `_decode_uXXXX`: the value of four hex digits. -/
def hexVal4 (h1 h2 h3 h4 : Nat) : Option Nat :=
  match parseHexDigit h1, parseHexDigit h2, parseHexDigit h3, parseHexDigit h4 with
  | some d1, some d2, some d3, some d4 => some (d1 * 4096 + d2 * 256 + d3 * 16 + d4)
  | _, _, _, _ => none

/-- The `BACKSLASH` table of `json.decoder`: value of a simple escape. -/
def simpleEscape (e : Nat) : Option Nat :=
  if e = 0x22 then some 0x22
  else if e = 0x5C then some 0x5C
  else if e = 0x2F then some 0x2F
  else if e = 0x62 then some 0x08
  else if e = 0x66 then some 0x0C
  else if e = 0x6E then some 0x0A
  else if e = 0x72 then some 0x0D
  else if e = 0x74 then some 0x09
  else none

/-- One step of `json.decoder.py_scanstring` in strict mode, positioned
inside the string: the closing quote, one decoded code point together with
the number of extra source characters it consumed beyond the first, or a
scan error.  Covers literal characters, simple escapes, `\uXXXX` escapes
and the surrogate-pair rule — after a high-surrogate escape the scanner
commits to a following `\u` lookahead and combines a low surrogate into
one code point. -/
inductive ScanStep where
  | close
  | chr (c : Nat) (extra : Nat)
  | err
deriving DecidableEq

/-- The committed surrogate lookahead of `py_scanstring`: after a
high-surrogate `\uXXXX` escape, if the next two characters are `\u` the
scanner parses a second escape and, when it is a low surrogate, combines the
two into one code point. -/
def uLookahead (u : Nat) (rest3 : List Nat) : ScanStep :=
  if rest3.take 2 = [0x5C, 0x75] then
    match rest3 with
    | _ :: _ :: g1 :: g2 :: g3 :: g4 :: _ =>
      match hexVal4 g1 g2 g3 g4 with
      | none => .err
      | some u2 =>
        if 0xDC00 ≤ u2 ∧ u2 ≤ 0xDFFF then
          .chr (0x10000 + (u - 0xD800) * 0x400 + (u2 - 0xDC00)) 11
        else .chr u 5
    | _ => .err
  else .chr u 5

/-- A `\uXXXX` escape: four hex digits, then the surrogate lookahead when
the value is a high surrogate. -/
def uStep (rest2 : List Nat) : ScanStep :=
  match rest2 with
  | h1 :: h2 :: h3 :: h4 :: rest3 =>
    match hexVal4 h1 h2 h3 h4 with
    | none => .err
    | some u =>
      if 0xD800 ≤ u ∧ u ≤ 0xDBFF then uLookahead u rest3
      else .chr u 5
  | _ => .err

/-- The character after a backslash: `u` starts a `\uXXXX` escape, anything
else must be a simple escape. -/
def escapeStep (e : Nat) (rest2 : List Nat) : ScanStep :=
  if e = 0x75 then uStep rest2
  else
    match simpleEscape e with
    | some ch => .chr ch 1
    | none => .err

def scanStep (s : List Nat) : ScanStep :=
  match s with
  | [] => .err
  | c :: rest =>
    if c = 0x22 then .close
    else if c = 0x5C then
      match rest with
      | [] => .err
      | e :: rest2 => escapeStep e rest2
    else if c < 0x20 then .err
    else .chr c 0

/-- The scanning loop of `json.decoder.py_scanstring`: iterate `scanStep`
until the closing quote, collecting the decoded string and the rest of the
input.  The fuel only bounds the number of steps; each step consumes at
least one character, so one unit per input character always suffices. -/
def scanstringLoop : Nat → List Nat → Option (List Nat × List Nat)
  | 0, _ => none
  | _ + 1, [] => none
  | fuel + 1, x :: t =>
    match scanStep (x :: t) with
    | .close => some ([], t)
    | .err => none
    | .chr c extra =>
      match scanstringLoop fuel (t.drop extra) with
      | some (tail, r) => some (c :: tail, r)
      | none => none

/-- `json.decoder.py_scanstring` in strict mode, positioned after the
opening quote. -/
def parseJsonString (s : List Nat) : Option (List Nat × List Nat) :=
  scanstringLoop (s.length + 1) s

/-- JSON whitespace skipping (`[ \t\n\r]*`). -/
def skipWs : List Nat → List Nat
  | [] => []
  | c :: rest =>
      if c = 0x20 ∨ c = 0x09 ∨ c = 0x0A ∨ c = 0x0D then skipWs rest else c :: rest

/-- The member loop of the JSON object scanner, restricted to string values
(the only shape an environ backup has), positioned at the opening quote of
a key.  The fuel bounds the number of members; each member consumes at
least one input character, so the input length always suffices. -/
def parseMembers : Nat → List Nat → Option (List (List Nat × List Nat) × List Nat)
  | 0, _ => none
  | _ + 1, [] => none
  | fuel + 1, c :: rest =>
    if c = 0x22 then
      match parseJsonString rest with
      | none => none
      | some (k, rest2) =>
        match skipWs rest2 with
        | [] => none
        | c2 :: rest3 =>
          if c2 = 0x3A then
            match skipWs rest3 with
            | [] => none
            | c3 :: rest4 =>
              if c3 = 0x22 then
                match parseJsonString rest4 with
                | none => none
                | some (v, rest5) =>
                  match skipWs rest5 with
                  | [] => none
                  | c4 :: rest6 =>
                    if c4 = 0x2C then
                      match parseMembers fuel (skipWs rest6) with
                      | some (tail, r) => some ((k, v) :: tail, r)
                      | none => none
                    else if c4 = 0x7D then some ([(k, v)], rest6)
                    else none
              else none
          else none
    else none

/-- `json.loads` restricted to objects whose values are strings (any other
JSON document yields `none`, modelling that the decoded backup would not be
a `dict[str, str]`): optional whitespace, an object, optional trailing
whitespace, end of input. -/
def json_loads (s : List Nat) : Option (List (List Nat × List Nat)) :=
  match skipWs s with
  | [] => none
  | c :: rest =>
    if c = 0x7B then
      match skipWs rest with
      | [] => none
      | c2 :: rest2 =>
        if c2 = 0x7D then
          if (skipWs rest2).isEmpty then some [] else none
        else
          match parseMembers (s.length + 1) (c2 :: rest2) with
          | some (pairs, r) => if (skipWs r).isEmpty then some pairs else none
          | none => none
    else none

/-- The base64 alphabet character of one 6-bit value. -/
def b64Char (n : Nat) : Nat :=
  if n < 26 then 65 + n
  else if n < 52 then 71 + n
  else if n < 62 then n - 4
  else if n = 62 then 43
  else 47

/-- `base64.b64encode`: three bytes to four characters, with `=` padding. -/
def b64encode : List Nat → List Nat
  | a :: b :: c :: rest =>
      b64Char (a / 4) :: b64Char (a % 4 * 16 + b / 16) :: b64Char (b % 16 * 4 + c / 64)
        :: b64Char (c % 64) :: b64encode rest
  | [a, b] => [b64Char (a / 4), b64Char (a % 4 * 16 + b / 16), b64Char (b % 16 * 4), 0x3D]
  | [a] => [b64Char (a / 4), b64Char (a % 4 * 16), 0x3D, 0x3D]
  | [] => []

/-- The 6-bit value of a base64 alphabet character. -/
def b64DecChar (c : Nat) : Option Nat :=
  if 65 ≤ c ∧ c ≤ 90 then some (c - 65)
  else if 97 ≤ c ∧ c ≤ 122 then some (c - 71)
  else if 48 ≤ c ∧ c ≤ 57 then some (c + 4)
  else if c = 43 then some 62
  else if c = 47 then some 63
  else none

/-- Groups of four base64 characters back to bytes; `=` padding only at the
very end. -/
def b64decodeGroups : List Nat → Option (List Nat)
  | [] => some []
  | c1 :: c2 :: c3 :: c4 :: rest =>
      match b64DecChar c1, b64DecChar c2 with
      | some d1, some d2 =>
        if c3 = 0x3D then
          if c4 = 0x3D ∧ rest = [] then some [d1 * 4 + d2 / 16] else none
        else
          match b64DecChar c3 with
          | some d3 =>
            if c4 = 0x3D then
              if rest = [] then some [d1 * 4 + d2 / 16, d2 % 16 * 16 + d3 / 4] else none
            else
              match b64DecChar c4 with
              | some d4 =>
                match b64decodeGroups rest with
                | some bs => some ((d1 * 4 + d2 / 16) :: (d2 % 16 * 16 + d3 / 4)
                    :: (d3 % 4 * 64 + d4) :: bs)
                | none => none
              | none => none
          | none => none
      | _, _ => none
  | _ => none

/-- `base64.b64decode` on bytes: characters outside the alphabet are
discarded (`binascii.a2b_base64` skips them), then four-character groups
are decoded. -/
def b64decode (s : List Nat) : Option (List Nat) :=
  b64decodeGroups (s.filter (fun c => (b64DecChar c).isSome || c == 0x3D))

/-- `str.encode("utf-8")` for one code point; surrogates and out-of-range
values raise (`none`). -/
def utf8EncodeChar (c : Nat) : Option (List Nat) :=
  if c < 0x80 then some [c]
  else if c < 0x800 then some [0xC0 + c / 64, 0x80 + c % 64]
  else if 0xD800 ≤ c ∧ c ≤ 0xDFFF then none
  else if c < 0x10000 then some [0xE0 + c / 4096, 0x80 + c / 64 % 64, 0x80 + c % 64]
  else if c < 0x110000 then
    some [0xF0 + c / 0x40000, 0x80 + c / 4096 % 64, 0x80 + c / 64 % 64, 0x80 + c % 64]
  else none

/-- `str.encode("utf-8")` on a whole string. -/
def utf8Encode : List Nat → Option (List Nat)
  | [] => some []
  | c :: rest =>
      match utf8EncodeChar c, utf8Encode rest with
      | some bs, some rest' => some (bs ++ rest')
      | _, _ => none

/-- One code point of strict UTF-8 decoding: the lead byte, the
continuation bytes with overlong, surrogate and range checks, and the
remaining input; invalid input is `none`. -/
def utf8DecodeChar (b : Nat) (rest : List Nat) : Option (Nat × List Nat) :=
  if b < 0x80 then some (b, rest)
  else if 0xC2 ≤ b ∧ b ≤ 0xDF then
    match rest with
    | b2 :: rest2 =>
      if 0x80 ≤ b2 ∧ b2 ≤ 0xBF then some ((b - 0xC0) * 64 + (b2 - 0x80), rest2)
      else none
    | [] => none
  else if 0xE0 ≤ b ∧ b ≤ 0xEF then
    match rest with
    | b2 :: b3 :: rest2 =>
      if (0x80 ≤ b2 ∧ b2 ≤ 0xBF) ∧ (0x80 ≤ b3 ∧ b3 ≤ 0xBF)
          ∧ (b ≠ 0xE0 ∨ 0xA0 ≤ b2) ∧ (b ≠ 0xED ∨ b2 ≤ 0x9F) then
        some ((b - 0xE0) * 4096 + (b2 - 0x80) * 64 + (b3 - 0x80), rest2)
      else none
    | _ => none
  else if 0xF0 ≤ b ∧ b ≤ 0xF4 then
    match rest with
    | b2 :: b3 :: b4 :: rest2 =>
      if (0x80 ≤ b2 ∧ b2 ≤ 0xBF) ∧ (0x80 ≤ b3 ∧ b3 ≤ 0xBF) ∧ (0x80 ≤ b4 ∧ b4 ≤ 0xBF)
          ∧ (b ≠ 0xF0 ∨ 0x90 ≤ b2) ∧ (b ≠ 0xF4 ∨ b2 ≤ 0x8F) then
        some ((b - 0xF0) * 0x40000 + (b2 - 0x80) * 4096 + (b3 - 0x80) * 64
          + (b4 - 0x80), rest2)
      else none
    | _ => none
  else none

/-- The byte loop of strict UTF-8 decoding.  The fuel only bounds the
number of decoded code points; each one consumes at least one byte, so one
unit per input byte always suffices. -/
def utf8DecodeLoop : Nat → List Nat → Option (List Nat)
  | 0, _ => none
  | _ + 1, [] => some []
  | fuel + 1, b :: rest =>
    match utf8DecodeChar b rest with
    | none => none
    | some (c, rest2) =>
      match utf8DecodeLoop fuel rest2 with
      | some cs => some (c :: cs)
      | none => none

/-- `bytes.decode("utf-8")`: strict UTF-8 decoding of a whole byte string;
invalid input raises (`none`). -/
def utf8Decode (bs : List Nat) : Option (List Nat) :=
  utf8DecodeLoop (bs.length + 1) bs

/-- `str.encode("ascii")` (applied by `b64decode` to a `str` argument);
non-ASCII raises (`none`). -/
def asciiEncode : List Nat → Option (List Nat)
  | [] => some []
  | c :: rest =>
      if c < 0x80 then
        match asciiEncode rest with
        | some bs => some (c :: bs)
        | none => none
      else none

/-- Embeds `encode_environ_backup` (`src/ddb/feature/shell/actions.py:16-20`):
`base64.b64encode(json.dumps(environ_backup).encode("utf-8")).decode("utf-8")`;
a raised encoding error is `none`. -/
def encode_environ_backup (environ_backup : List (List Nat × List Nat)) :
    Option (List Nat) :=
  match utf8Encode (json_dumps environ_backup) with
  | none => none
  | some bs => utf8Decode (b64encode bs)

/-- Embeds `decode_environ_backup` (`src/ddb/feature/shell/actions.py:23-27`):
`json.loads(base64.b64decode(encoded_environ_backup).decode("utf-8"))`; a
raised error, or a document that is not an object of strings, is `none`. -/
def decode_environ_backup (encoded_environ_backup : List Nat) :
    Option (List (List Nat × List Nat)) :=
  match asciiEncode encoded_environ_backup with
  | none => none
  | some bs =>
    match b64decode bs with
    | none => none
    | some bs2 =>
      match utf8Decode bs2 with
      | none => none
      | some str => json_loads str

/-- Whether a high-surrogate code point is immediately followed by a
low-surrogate code point somewhere in the string (the one shape the JSON
scanner recombines). -/
def hasSurrogatePair : List Nat → Bool
  | c1 :: c2 :: rest =>
      (0xD800 ≤ c1 && c1 ≤ 0xDBFF && 0xDC00 ≤ c2 && c2 ≤ 0xDFFF)
        || hasSurrogatePair (c2 :: rest)
  | _ => false

/-! # Theorems -/

theorem foldl_append_eq_flatMap {α : Type} (g : Feature → List α) (fs : List Feature)
    (acc : List α) :
    fs.foldl (fun acc feature => acc ++ g feature) acc = acc ++ fs.flatMap g := by
  induction fs generalizing acc with
  | nil => simp
  | cons f fs ih => simp [ih, List.flatMap_cons, List.append_assoc]

theorem foldlM_register_ok {α : Type} (nameOf : α → String) (l : List α) (acc out : List α)
    (h : l.foldlM (Registry.register nameOf) acc = .ok out) : out = acc ++ l := by
  induction l generalizing acc with
  | nil =>
    simp only [List.foldlM, pure, Except.pure, Except.ok.injEq] at h
    subst h; simp
  | cons x xs ih =>
    rw [List.foldlM_cons] at h
    cases hr : Registry.register nameOf acc x with
    | error e => rw [hr] at h; simp [bind, Except.bind] at h
    | ok acc' =>
      rw [hr] at h
      simp only [bind, Except.bind] at h
      have hacc : acc' = acc ++ [x] := by
        unfold Registry.register at hr
        split at hr
        · cases hr
        · cases hr; rfl
      have := ih acc' h
      simp [this, hacc]

theorem register_objects_ok {α : Type} (nameOf : α → String) (fs : List Feature)
    (g : Feature → List α) (out : List α) (h : register_objects nameOf fs g = .ok out) :
    out = fs.flatMap g := by
  unfold register_objects at h
  have := foldlM_register_ok nameOf _ [] out h
  simpa [foldl_append_eq_flatMap] using this

theorem beforeLoadLoop_eq_map (fs : List Feature) :
    beforeLoadLoop fs = fs.map (fun f => .beforeLoad f.name) := by
  induction fs with
  | nil => rfl
  | cons f fs ih => simp [beforeLoadLoop, ih]

theorem configureLoop_eq_map (fs : List Feature) :
    configureLoop fs = fs.map (fun f => .configure f.name) := by
  induction fs with
  | nil => rfl
  | cons f fs ih => simp [configureLoop, ih]

theorem afterLoadLoop_eq_map (fs : List Feature) :
    afterLoadLoop fs = fs.map (fun f => .afterLoad f.name) := by
  induction fs with
  | nil => rfl
  | cons f fs ih => simp [afterLoadLoop, ih]

theorem step_of_mem_map {α : Type} (c : Nat) (g : α → LifecycleEvent)
    (hg : ∀ x, lifecycleStep (g x) = c) (l : List α) :
    ∀ e ∈ l.map g, lifecycleStep e = c := by
  intro e he
  rcases List.mem_map.1 he with ⟨x, -, rfl⟩
  exact hg x

theorem pairwise_step_of_const (l : List LifecycleEvent) (c : Nat)
    (h : ∀ e ∈ l, lifecycleStep e = c) :
    l.Pairwise (fun e1 e2 => lifecycleStep e1 ≤ lifecycleStep e2) := by
  induction l with
  | nil => exact .nil
  | cons x xs ih =>
    refine .cons (fun y hy => ?_) (ih (fun e he => h e (List.mem_cons_of_mem _ he)))
    rw [h x (List.mem_cons_self x xs), h y (List.mem_cons_of_mem _ hy)]

theorem pairwise_step_mono_of_blocks (B C M AL : List LifecycleEvent)
    (hB : ∀ e ∈ B, lifecycleStep e = 0) (hC : ∀ e ∈ C, lifecycleStep e = 1)
    (hM : ∀ e ∈ M, lifecycleStep e = 2) (hAL : ∀ e ∈ AL, lifecycleStep e = 3) :
    (B ++ (C ++ (M ++ AL))).Pairwise (fun e1 e2 => lifecycleStep e1 ≤ lifecycleStep e2) := by
  rw [List.pairwise_append]
  refine ⟨pairwise_step_of_const B 0 hB, ?_, fun a ha b hb => ?_⟩
  · rw [List.pairwise_append]
    refine ⟨pairwise_step_of_const C 1 hC, ?_, fun a ha b hb => ?_⟩
    · rw [List.pairwise_append]
      refine ⟨pairwise_step_of_const M 2 hM, pairwise_step_of_const AL 3 hAL,
        fun a ha b hb => ?_⟩
      rw [hM a ha, hAL b hb]; omega
    · rcases List.mem_append.1 hb with hb' | hb'
      · rw [hC a ha, hM b hb']; omega
      · rw [hC a ha, hAL b hb']; omega
  · rcases List.mem_append.1 hb with hb' | hb'
    · rw [hB a ha, hC b hb']; omega
    · rcases List.mem_append.1 hb' with hb'' | hb''
      · rw [hB a ha, hM b hb'']; omega
      · rw [hB a ha, hAL b hb'']; omega

theorem load_registered_features_ok (all_features : List Feature) (r : LoadResult)
    (h : load_registered_features all_features = .ok r) :
    r.enabled_features = all_features.filter (fun f => !f.disabled) ∧
    r.phases = (all_features.filter (fun f => !f.disabled)).flatMap (fun f => f.phases) ∧
    r.commands = (all_features.filter (fun f => !f.disabled)).flatMap (fun f => f.commands) ∧
    r.actions = (all_features.filter (fun f => !f.disabled)).flatMap
      (fun f => f.actions.filter (fun a => !a.disabled)) ∧
    r.binaries = (all_features.filter (fun f => !f.disabled)).flatMap (fun f => f.binaries) ∧
    r.services = (all_features.filter (fun f => !f.disabled)).flatMap (fun f => f.services) ∧
    r.trace = beforeLoadLoop all_features ++ configureLoop all_features
      ++ r.phases.map (.registerObject .phase)
      ++ r.commands.map (.registerObject .command)
      ++ r.actions.map (fun a => .registerObject .action a.name)
      ++ r.binaries.map (.registerObject .binary)
      ++ r.services.map (.registerObject .service)
      ++ afterLoadLoop (all_features.filter (fun f => !f.disabled)) := by
  simp only [load_registered_features, bind, Except.bind] at h
  cases h1 : register_objects (fun s => s) (all_features.filter fun f => !f.disabled)
      (fun f => f.phases) with
  | error e => rw [h1] at h; simp at h
  | ok phs =>
  rw [h1] at h
  simp only [] at h
  cases h2 : register_objects (fun s => s) (all_features.filter fun f => !f.disabled)
      (fun f => f.commands) with
  | error e => rw [h2] at h; simp at h
  | ok cmds =>
  rw [h2] at h
  cases h3 : register_objects DdbAction.name (all_features.filter fun f => !f.disabled)
      (fun f => f.actions.filter fun a => !a.disabled) with
  | error e => rw [h3] at h; simp at h
  | ok acts =>
  rw [h3] at h
  cases h4 : register_objects (fun s => s) (all_features.filter fun f => !f.disabled)
      (fun f => f.binaries) with
  | error e => rw [h4] at h; simp at h
  | ok bins =>
  rw [h4] at h
  cases h5 : register_objects (fun s => s) (all_features.filter fun f => !f.disabled)
      (fun f => f.services) with
  | error e => rw [h5] at h; simp at h
  | ok svcs =>
  rw [h5] at h
  simp only [pure, Except.pure, Except.ok.injEq] at h
  cases h
  refine ⟨rfl, register_objects_ok _ _ _ _ h1, register_objects_ok _ _ _ _ h2,
    register_objects_ok _ _ _ _ h3, register_objects_ok _ _ _ _ h4,
    register_objects_ok _ _ _ _ h5, rfl⟩

/-- C4: if the selected command raises `RestartWithArgs`, `handle_command_line`
substitutes the signal's restart arguments and re-executes the command exactly
once (the execution trace is precisely `[args, restart_args]`); a successful
retry completes the pipeline, while a second restart signal is not caught and
propagates as an unhandled failure. -/
theorem handle_command_line_restart_once {α : Type}
    (execute_command : α → Except (CommandExc α) Unit) (args a1 : α)
    (h : execute_command args = .error (.restartWithArgs a1)) :
    (handle_command_line execute_command args).executions = [args, a1] ∧
    (execute_command a1 = .ok () →
      (handle_command_line execute_command args).outcome = .completed) ∧
    (∀ a2, execute_command a1 = .error (.restartWithArgs a2) →
      (handle_command_line execute_command args).outcome =
        .uncaught (.restartWithArgs a2)) := by
  refine ⟨?_, ?_, ?_⟩
  · cases hx : execute_command a1 <;> simp [handle_command_line, h, hx]
  · intro h2; simp [handle_command_line, h, h2]
  · intro a2 h2; simp [handle_command_line, h, h2]

theorem handle_command_line_restart_once_witness :
    (handle_command_line execAlwaysRestart 0).executions = [0, 1] ∧
    (handle_command_line execAlwaysRestart 0).outcome =
      .uncaught (.restartWithArgs 2) :=
  ⟨(handle_command_line_restart_once execAlwaysRestart 0 1 rfl).1,
   (handle_command_line_restart_once execAlwaysRestart 0 1 rfl).2.2 2 rfl⟩

/-- C5: the console entry point exits with status 1 exactly when the
process-wide exception list returned by `main` is non-empty, and returns
normally (exit status zero) exactly when that list is empty. -/
theorem console_script_exit_status (exceptions : List String) :
    (console_script exceptions = .exit 1 ↔ exceptions ≠ []) ∧
    (console_script exceptions = .normalReturn ↔ exceptions = []) := by
  unfold console_script
  cases exceptions <;> simp

theorem check_feature_ok (name : String) (efs : List (String × Feature)) (rs : List String)
    (h : ∀ d ∈ rs, isKey efs d = true) :
    _check_feature_dependencies name efs rs = .ok () := by
  induction rs with
  | nil => rfl
  | cons x rest ih =>
    have hx := h x (List.mem_cons_self x rest)
    simp only [_check_feature_dependencies, hx, if_true]
    exact ih (fun d hd => h d (List.mem_cons_of_mem _ hd))

theorem check_feature_error (name : String) (efs : List (String × Feature)) (rs : List String)
    (h : ∃ d ∈ rs, isKey efs d = false) :
    ∃ d, d ∈ rs ∧ isKey efs d = false ∧
      _check_feature_dependencies name efs rs = .error (missingDependencyMessage name d) := by
  induction rs with
  | nil => simp at h
  | cons x rest ih =>
    by_cases hx : isKey efs x = true
    · have h' : ∃ d ∈ rest, isKey efs d = false := by
        rcases h with ⟨d, hd, hfalse⟩
        rcases List.mem_cons.1 hd with rfl | hd'
        · rw [hx] at hfalse; cases hfalse
        · exact ⟨d, hd', hfalse⟩
      rcases ih h' with ⟨d, hd, hf, heq⟩
      exact ⟨d, List.mem_cons_of_mem _ hd, hf,
        by simp [_check_feature_dependencies, hx, heq]⟩
    · have hx' : isKey efs x = false := by simpa using hx
      exact ⟨x, List.mem_cons_self x rest, hx',
        by simp [_check_feature_dependencies, hx']⟩

theorem check_missing_ok (efs : List (String × Feature)) (reqs : List (String × List String))
    (h : ∀ nr ∈ reqs, ∀ d ∈ nr.2, isKey efs d = true) :
    _check_missing_dependencies efs reqs = .ok () := by
  induction reqs with
  | nil => rfl
  | cons nr rest ih =>
    have h1 := check_feature_ok nr.1 efs nr.2 (h nr (List.mem_cons_self _ _))
    simp only [_check_missing_dependencies, h1, bind, Except.bind]
    exact ih (fun x hx => h x (List.mem_cons_of_mem _ hx))

theorem check_missing_error (efs : List (String × Feature))
    (reqs : List (String × List String))
    (h : ∃ nr ∈ reqs, ∃ d ∈ nr.2, isKey efs d = false) :
    ∃ n d rs, (n, rs) ∈ reqs ∧ d ∈ rs ∧ isKey efs d = false ∧
      _check_missing_dependencies efs reqs = .error (missingDependencyMessage n d) := by
  induction reqs with
  | nil => simp at h
  | cons nr rest ih =>
    by_cases hhead : ∃ d ∈ nr.2, isKey efs d = false
    · rcases check_feature_error nr.1 efs nr.2 hhead with ⟨d, hd, hf, heq⟩
      exact ⟨nr.1, d, nr.2, by simp, hd, hf,
        by simp [_check_missing_dependencies, heq, bind, Except.bind]⟩
    · have hokhead : _check_feature_dependencies nr.1 efs nr.2 = .ok () := by
        refine check_feature_ok nr.1 efs nr.2 (fun d hd => ?_)
        by_contra hc
        exact hhead ⟨d, hd, by simpa using hc⟩
      have h' : ∃ nr' ∈ rest, ∃ d ∈ nr'.2, isKey efs d = false := by
        rcases h with ⟨nr', hnr', hex⟩
        rcases List.mem_cons.1 hnr' with rfl | hmem
        · exact absurd hex hhead
        · exact ⟨nr', hmem, hex⟩
      rcases ih h' with ⟨n, d, rs, hmem, hd, hf, heq⟩
      exact ⟨n, d, rs, List.mem_cons_of_mem _ hmem, hd, hf,
        by simp [_check_missing_dependencies, hokhead, heq, bind, Except.bind]⟩

theorem prepare_feature_dependencies_fst (deps req depset : List String) :
    (_prepare_feature_dependencies deps req depset).1
      = req ++ deps.filter (fun d => !d.endsWith "[optional]") := by
  induction deps generalizing req depset with
  | nil => simp [_prepare_feature_dependencies]
  | cons x rest ih =>
    by_cases hx : (!x.endsWith "[optional]") = true
    · simp [_prepare_feature_dependencies, hx, ih, List.filter_cons]
    · have hx' : (!x.endsWith "[optional]") = false := by simpa using hx
      simp [_prepare_feature_dependencies, hx', ih, List.filter_cons]

theorem prepare_dependencies_data_fst (efs : List (String × Feature)) :
    (_prepare_dependencies_data efs).1
      = efs.map
          (fun p => (p.1, p.2.dependencies.filter (fun d => !d.endsWith "[optional]"))) := by
  induction efs with
  | nil => rfl
  | cons p rest ih =>
    obtain ⟨name, feat⟩ := p
    simp [_prepare_dependencies_data, ih, prepare_feature_dependencies_fst]

theorem isKey_eq_keys_any {α : Type} (d : List (String × α)) (k : String) :
    isKey d k = (d.map Prod.fst).any (fun x => x == k) := by
  induction d with
  | nil => rfl
  | cons p rest ih => simp [isKey, List.any_cons] at ih ⊢; rw [ih]

theorem isKey_iff_mem_keys {α : Type} (d : List (String × α)) (k : String) :
    isKey d k = true ↔ k ∈ d.map Prod.fst := by
  rw [isKey_eq_keys_any]
  constructor
  · intro h
    rcases List.any_eq_true.1 h with ⟨x, hx, he⟩
    exact (show x = k by simpa using he) ▸ hx
  · intro h
    exact List.any_eq_true.2 ⟨k, h, by simp⟩

theorem isKey_of_mem {α : Type} {d : List (String × α)} {p : String × α} (h : p ∈ d) :
    isKey d p.1 = true :=
  (isKey_iff_mem_keys d p.1).2 (List.mem_map_of_mem Prod.fst h)

theorem exists_entry_of_isKey {α : Type} (d : List (String × α)) (k : String)
    (h : isKey d k = true) : ∃ v, (k, v) ∈ d := by
  rcases List.mem_map.1 ((isKey_iff_mem_keys d k).1 h) with ⟨p, hp, hk⟩
  exact ⟨p.2, by rw [← hk]; simpa using hp⟩

theorem mem_depSetAdd_of_mem {s : List String} {x y : String} (h : y ∈ s) :
    y ∈ depSetAdd s x := by
  unfold depSetAdd
  split <;> simp [h]

theorem mem_depSetAdd_self (s : List String) (x : String) : x ∈ depSetAdd s x := by
  unfold depSetAdd
  split
  · exact List.mem_of_elem_eq_true (by assumption)
  · simp

theorem dictAddDep_keys (td : List (String × List String)) (f dep : String) :
    (dictAddDep td f dep).map Prod.fst = td.map Prod.fst := by
  unfold dictAddDep
  rw [List.map_map]
  apply List.map_congr_left
  intro p hp
  by_cases h : p.1 = f <;> simp [h]

theorem foldl_dictAddDep_keys (deps : List String) (td : List (String × List String))
    (f : String) :
    ((deps.foldl (fun t dep => dictAddDep t f dep) td).map Prod.fst) = td.map Prod.fst := by
  induction deps generalizing td with
  | nil => rfl
  | cons x rest ih => simp only [List.foldl_cons]; rw [ih, dictAddDep_keys]

theorem isKey_congr_keys {α β : Type} (d : List (String × α)) (e : List (String × β))
    (hk : d.map Prod.fst = e.map Prod.fst) (k : String) : isKey d k = isKey e k := by
  rw [isKey_eq_keys_any, isKey_eq_keys_any, hk]

theorem isKey_append {α : Type} (d e : List (String × α)) (k : String) :
    isKey (d ++ e) k = (isKey d k || isKey e k) := by
  simp [isKey, List.any_append]

theorem mergeConfigDependencies_isKey (cfg : List (String × List String)) (k : String) :
    ∀ td, (isKey td k = true ∨ ∃ e ∈ cfg, e.1 = k) →
      isKey (mergeConfigDependencies td cfg) k = true := by
  induction cfg with
  | nil =>
    intro td h
    rcases h with h | h
    · exact h
    · simp at h
  | cons fd rest ih =>
    intro td h
    simp only [mergeConfigDependencies]
    apply ih
    rcases h with h | h
    · left
      have h1 : isKey (if isKey td fd.1 = true then td else td ++ [(fd.1, [])]) k = true := by
        split
        · exact h
        · rw [isKey_append, h]; rfl
      rw [isKey_congr_keys _ _ (foldl_dictAddDep_keys fd.2 _ fd.1), h1]
    · rcases h with ⟨e, hmem, hek⟩
      rcases List.mem_cons.1 hmem with rfl | hmem'
      · left
        have h1 : isKey (if isKey td e.1 = true then td else td ++ [(e.1, [])]) k = true := by
          subst hek
          split
          · assumption
          · rw [isKey_append]
            simp [isKey]
        rw [isKey_congr_keys _ _ (foldl_dictAddDep_keys e.2 _ e.1)]
        exact h1
      · exact Or.inr ⟨e, hmem', hek⟩

theorem dictAddDep_mem (td : List (String × List String)) (f dep k : String)
    (v : List String) (d : String) (hm : (k, v) ∈ td) (hd : d ∈ v) :
    ∃ v', (k, v') ∈ dictAddDep td f dep ∧ d ∈ v' := by
  by_cases hk : k = f
  · refine ⟨depSetAdd v dep, ?_, mem_depSetAdd_of_mem hd⟩
    have := List.mem_map_of_mem
      (fun p : String × List String =>
        if p.1 == f then (p.1, depSetAdd p.2 dep) else p) hm
    simpa [dictAddDep, hk] using this
  · refine ⟨v, ?_, hd⟩
    have := List.mem_map_of_mem
      (fun p : String × List String =>
        if p.1 == f then (p.1, depSetAdd p.2 dep) else p) hm
    simpa [dictAddDep, hk] using this

theorem dictAddDep_self (td : List (String × List String)) (f dep : String)
    (v : List String) (hm : (f, v) ∈ td) :
    ∃ v', (f, v') ∈ dictAddDep td f dep ∧ dep ∈ v' := by
  refine ⟨depSetAdd v dep, ?_, mem_depSetAdd_self v dep⟩
  have := List.mem_map_of_mem
    (fun p : String × List String =>
      if p.1 == f then (p.1, depSetAdd p.2 dep) else p) hm
  simpa [dictAddDep] using this

theorem foldl_dictAddDep_mem (deps : List String) (f k d : String) :
    ∀ (td : List (String × List String)) (v : List String),
      (k, v) ∈ td → d ∈ v →
      ∃ v', (k, v') ∈ deps.foldl (fun t dep => dictAddDep t f dep) td ∧ d ∈ v' := by
  induction deps with
  | nil => exact fun td v hm hd => ⟨v, hm, hd⟩
  | cons x rest ih =>
    intro td v hm hd
    rcases dictAddDep_mem td f x k v d hm hd with ⟨v', hm', hd'⟩
    exact ih _ _ hm' hd'

theorem foldl_dictAddDep_self (deps : List String) (f d : String) :
    ∀ (td : List (String × List String)) (v : List String),
      (f, v) ∈ td → d ∈ deps →
      ∃ v', (f, v') ∈ deps.foldl (fun t dep => dictAddDep t f dep) td ∧ d ∈ v' := by
  induction deps with
  | nil => intro td v _ hd; simp at hd
  | cons x rest ih =>
    intro td v hm hd
    rcases List.mem_cons.1 hd with rfl | hd'
    · rcases dictAddDep_self td f d v hm with ⟨v', hm', hdm⟩
      exact foldl_dictAddDep_mem rest f f d _ v' hm' hdm
    · rcases dictAddDep_self td f x v hm with ⟨v', hm', -⟩
      exact ih _ _ hm' hd'

theorem mergeConfigDependencies_mem (cfg : List (String × List String)) (k d : String) :
    ∀ (td : List (String × List String)) (v : List String),
      (k, v) ∈ td → d ∈ v →
      ∃ v', (k, v') ∈ mergeConfigDependencies td cfg ∧ d ∈ v' := by
  induction cfg with
  | nil => exact fun td v hm hd => ⟨v, hm, hd⟩
  | cons fd rest ih =>
    intro td v hm hd
    simp only [mergeConfigDependencies]
    have hm1 : (k, v) ∈ (if isKey td fd.1 = true then td else td ++ [(fd.1, [])]) := by
      split
      · exact hm
      · exact List.mem_append_left _ hm
    rcases foldl_dictAddDep_mem fd.2 fd.1 k d _ v hm1 hd with ⟨v', hm', hd'⟩
    exact ih _ _ hm' hd'

theorem mergeConfigDependencies_entry (cfg : List (String × List String)) (f0 d : String) :
    ∀ td, (∃ e ∈ cfg, e.1 = f0 ∧ d ∈ e.2) →
      ∃ v, (f0, v) ∈ mergeConfigDependencies td cfg ∧ d ∈ v := by
  induction cfg with
  | nil => intro td h; simp at h
  | cons fd rest ih =>
    intro td h
    simp only [mergeConfigDependencies]
    by_cases he : fd.1 = f0 ∧ d ∈ fd.2
    · obtain ⟨heq, hdm⟩ := he
      subst heq
      have hkey : ∃ v0, (fd.1, v0) ∈ (if isKey td fd.1 = true then td else td ++ [(fd.1, [])]) := by
        by_cases hik : isKey td fd.1 = true
        · simp only [hik, if_true]
          exact exists_entry_of_isKey td fd.1 hik
        · simp only [hik, if_false, Bool.false_eq_true]
          exact ⟨[], by simp⟩
      rcases hkey with ⟨v0, hv0⟩
      rcases foldl_dictAddDep_self fd.2 fd.1 d _ v0 hv0 hdm with ⟨v', hm', hd'⟩
      exact mergeConfigDependencies_mem rest fd.1 d _ v' hm' hd'
    · have h' : ∃ e ∈ rest, e.1 = f0 ∧ d ∈ e.2 := by
        rcases h with ⟨e, hmem, he2⟩
        rcases List.mem_cons.1 hmem with rfl | hmem'
        · exact absurd he2 he
        · exact ⟨e, hmem', he2⟩
      exact ih _ h'

theorem mem_insertStr (x y : String) (l : List String) :
    y ∈ insertStr x l ↔ y = x ∨ y ∈ l := by
  induction l with
  | nil => simp [insertStr]
  | cons z rest ih =>
    unfold insertStr
    split
    · simp [List.mem_cons]
    · simp [List.mem_cons, ih]
      tauto

theorem mem_sortStrs (x : String) (l : List String) : x ∈ sortStrs l ↔ x ∈ l := by
  induction l with
  | nil => simp [sortStrs]
  | cons y rest ih => simp [sortStrs, mem_insertStr, ih]

/-- C2: `load_registered_features` runs the lifecycle breadth-first: the trace
is step-monotone (every `before_load()` precedes every `configure()`, which
precedes every registration, which precedes every `after_load()`), the
`before_load()` and `configure()` steps cover every registered feature in
order, registration covers exactly the phases, commands, non-disabled
actions, binaries and services of the enabled features, and `after_load()`
covers exactly the enabled features. -/
theorem load_registered_features_breadth_first (all_features : List Feature)
    (r : LoadResult) (h : load_registered_features all_features = .ok r) :
    r.trace.Pairwise (fun e1 e2 => lifecycleStep e1 ≤ lifecycleStep e2) ∧
    r.trace.filter (fun e => lifecycleStep e == 0)
      = all_features.map (fun f => .beforeLoad f.name) ∧
    r.trace.filter (fun e => lifecycleStep e == 1)
      = all_features.map (fun f => .configure f.name) ∧
    r.trace.filter (fun e => lifecycleStep e == 2)
      = r.phases.map (.registerObject .phase)
        ++ r.commands.map (.registerObject .command)
        ++ r.actions.map (fun a => .registerObject .action a.name)
        ++ r.binaries.map (.registerObject .binary)
        ++ r.services.map (.registerObject .service) ∧
    r.phases = (all_features.filter (fun f => !f.disabled)).flatMap (fun f => f.phases) ∧
    r.commands = (all_features.filter (fun f => !f.disabled)).flatMap (fun f => f.commands) ∧
    r.actions = (all_features.filter (fun f => !f.disabled)).flatMap
      (fun f => f.actions.filter (fun a => !a.disabled)) ∧
    r.binaries = (all_features.filter (fun f => !f.disabled)).flatMap (fun f => f.binaries) ∧
    r.services = (all_features.filter (fun f => !f.disabled)).flatMap (fun f => f.services) ∧
    r.trace.filter (fun e => lifecycleStep e == 3)
      = (all_features.filter (fun f => !f.disabled)).map (fun f => .afterLoad f.name) := by
  obtain ⟨hen, hph, hcm, hac, hbi, hsv, htr⟩ := load_registered_features_ok all_features r h
  refine ⟨?_, ?_, ?_, ?_, hph, hcm, hac, hbi, hsv, ?_⟩
  · have hB : ∀ e ∈ beforeLoadLoop all_features, lifecycleStep e = 0 := by
      rw [beforeLoadLoop_eq_map]
      exact step_of_mem_map 0 (fun (f : Feature) => LifecycleEvent.beforeLoad f.name) (fun f => rfl) _
    have hC : ∀ e ∈ configureLoop all_features, lifecycleStep e = 1 := by
      rw [configureLoop_eq_map]
      exact step_of_mem_map 1 (fun (f : Feature) => LifecycleEvent.configure f.name) (fun f => rfl) _
    have hAL : ∀ e ∈ afterLoadLoop (all_features.filter (fun f => !f.disabled)),
        lifecycleStep e = 3 := by
      rw [afterLoadLoop_eq_map]
      exact step_of_mem_map 3 (fun (f : Feature) => LifecycleEvent.afterLoad f.name) (fun f => rfl) _
    have hM : ∀ e ∈ r.phases.map (LifecycleEvent.registerObject .phase)
        ++ (r.commands.map (LifecycleEvent.registerObject .command)
        ++ (r.actions.map (fun a => LifecycleEvent.registerObject .action a.name)
        ++ (r.binaries.map (LifecycleEvent.registerObject .binary)
        ++ r.services.map (LifecycleEvent.registerObject .service)))),
        lifecycleStep e = 2 := by
      intro e he
      simp only [List.mem_append] at he
      rcases he with he | he | he | he | he
      · exact step_of_mem_map 2 (LifecycleEvent.registerObject .phase) (fun _ => rfl) _ e he
      · exact step_of_mem_map 2 (LifecycleEvent.registerObject .command) (fun _ => rfl) _ e he
      · exact step_of_mem_map 2 (fun (a : DdbAction) => LifecycleEvent.registerObject .action a.name)
          (fun _ => rfl) _ e he
      · exact step_of_mem_map 2 (LifecycleEvent.registerObject .binary) (fun _ => rfl) _ e he
      · exact step_of_mem_map 2 (LifecycleEvent.registerObject .service) (fun _ => rfl) _ e he
    have hall := pairwise_step_mono_of_blocks _ _ _ _ hB hC hM hAL
    rw [htr]
    simpa [List.append_assoc] using hall
  · rw [htr]
    simp [List.filter_append, List.filter_map, Function.comp_def, lifecycleStep,
      beforeLoadLoop_eq_map, configureLoop_eq_map, afterLoadLoop_eq_map]
  · rw [htr]
    simp [List.filter_append, List.filter_map, Function.comp_def, lifecycleStep,
      beforeLoadLoop_eq_map, configureLoop_eq_map, afterLoadLoop_eq_map]
  · rw [htr]
    simp [List.filter_append, List.filter_map, Function.comp_def, lifecycleStep,
      beforeLoadLoop_eq_map, configureLoop_eq_map, afterLoadLoop_eq_map]
  · rw [htr]
    simp [List.filter_append, List.filter_map, Function.comp_def, lifecycleStep,
      beforeLoadLoop_eq_map, configureLoop_eq_map, afterLoadLoop_eq_map]

/-- C6: an action ends up in the global action registry exactly when its
owning feature is enabled (resolved `disabled` flag false) and the action's
own `disabled` flag is false; actions of disabled features and disabled
actions of enabled features are never registered. -/
theorem action_in_registry_iff (all_features : List Feature) (r : LoadResult)
    (a : DdbAction) (h : load_registered_features all_features = .ok r) :
    a ∈ r.actions ↔
      ∃ f, f ∈ all_features ∧ f.disabled = false ∧ a ∈ f.actions ∧
        a.disabled = false := by
  obtain ⟨-, -, -, hac, -, -, -⟩ := load_registered_features_ok all_features r h
  rw [hac]
  simp only [List.mem_flatMap, List.mem_filter]
  constructor
  · rintro ⟨f, ⟨hf, hfd⟩, ha, had⟩
    exact ⟨f, hf, by simpa using hfd, ha, by simpa using had⟩
  · rintro ⟨f, hf, hfd, ha, had⟩
    exact ⟨f, ⟨hf, by simp [hfd]⟩, ha, by simp [had]⟩

theorem load_registered_features_breadth_first_witness :
    sampleLoadResult.trace.Pairwise (fun e1 e2 => lifecycleStep e1 ≤ lifecycleStep e2) :=
  (load_registered_features_breadth_first sampleFeatures sampleLoadResult (by rfl)).1

theorem action_in_registry_iff_witness :
    sampleActionInfo ∈ sampleLoadResult.actions ↔
      ∃ f, f ∈ sampleFeatures ∧ f.disabled = false ∧ sampleActionInfo ∈ f.actions ∧
        sampleActionInfo.disabled = false :=
  action_in_registry_iff sampleFeatures sampleLoadResult sampleActionInfo (by rfl)

/-- C3: when some feature declares a required (non-`[optional]`) dependency
that is not a key of the feature mapping, `register_features` fails with the
`ValueError` message naming the offending feature and the missing dependency,
before the topological sort runs and before any feature lifecycle hook or
action can execute (the combined register-and-load pipeline yields that same
error, so no load-phase side effect occurs). -/
theorem register_features_missing_dependency
    (default_features entry_point_features : List Feature)
    (config_dependencies : List (String × List String))
    (h : ∃ p ∈ entrypointFeaturesDict default_features entry_point_features,
      ∃ d ∈ p.2.dependencies, (!d.endsWith "[optional]") = true ∧
        isKey (entrypointFeaturesDict default_features entry_point_features) d = false) :
    ∃ n d f, (n, f) ∈ entrypointFeaturesDict default_features entry_point_features ∧
      d ∈ f.dependencies ∧ (!d.endsWith "[optional]") = true ∧
      isKey (entrypointFeaturesDict default_features entry_point_features) d = false ∧
      register_features default_features entry_point_features config_dependencies =
        .error (missingDependencyMessage n d) ∧
      registerAndLoad default_features entry_point_features config_dependencies =
        .error (missingDependencyMessage n d) := by
  set efs := entrypointFeaturesDict default_features entry_point_features with hefs
  have hreq : ∃ nr ∈ (_prepare_dependencies_data efs).1, ∃ d ∈ nr.2, isKey efs d = false := by
    rcases h with ⟨p, hp, d, hd, hreqd, hkey⟩
    refine ⟨(p.1, p.2.dependencies.filter (fun d => !d.endsWith "[optional]")), ?_, d, ?_, hkey⟩
    · rw [prepare_dependencies_data_fst]
      exact List.mem_map_of_mem _ hp
    · exact List.mem_filter.2 ⟨hd, hreqd⟩
  rcases check_missing_error efs _ hreq with ⟨n, d, rs, hmem, hd, hf, heq⟩
  rw [prepare_dependencies_data_fst] at hmem
  rcases List.mem_map.1 hmem with ⟨p, hp, hpe⟩
  have hn : p.1 = n := congrArg Prod.fst hpe
  have hrs : rs = p.2.dependencies.filter (fun d => !d.endsWith "[optional]") :=
    (congrArg Prod.snd hpe).symm
  subst hrs
  have hd' := List.mem_filter.1 hd
  have hrf : register_features default_features entry_point_features config_dependencies
      = .error (missingDependencyMessage n d) := by
    simp only [register_features, ← hefs, heq, bind, Except.bind]
  refine ⟨n, d, p.2, ?_, hd'.1, hd'.2, hf, hrf, ?_⟩
  · rw [← hn]; simpa using hp
  · simp only [registerAndLoad, hrf, bind, Except.bind]

theorem register_features_missing_dependency_witness :
    ∃ n d f, (n, f) ∈ entrypointFeaturesDict [sampleFeatureGamma] [] ∧
      d ∈ f.dependencies ∧ (!d.endsWith "[optional]") = true ∧
      isKey (entrypointFeaturesDict [sampleFeatureGamma] []) d = false ∧
      register_features [sampleFeatureGamma] [] [] =
        .error (missingDependencyMessage n d) ∧
      registerAndLoad [sampleFeatureGamma] [] [] =
        .error (missingDependencyMessage n d) :=
  register_features_missing_dependency [sampleFeatureGamma] [] [] (by decide)

theorem toposortLoop_complete (data : List (String × List String)) :
    ∀ out, toposortLoop data = .ok out → ∀ k ∈ data.map Prod.fst, k ∈ out := by
  induction data using toposortLoop.induct with
  | case1 data ordered hord hdat =>
    intro out h k hk
    rw [List.isEmpty_iff.1 hdat] at hk
    simp at hk
  | case2 data ordered hord hdat =>
    intro out h
    exfalso
    have hord' : ((data.filter (fun p => p.2.isEmpty)).map (fun p => p.1)).isEmpty = true := hord
    have hdat' : data.isEmpty = false := Bool.eq_false_iff.2 hdat
    rw [toposortLoop.eq_def] at h
    simp only [hord', hdat', if_true, Bool.false_eq_true, if_false] at h
    exact Except.noConfusion h
  | case3 data ordered hord rest out' hrec ih =>
    intro out h
    have hord' : ((data.filter (fun p => p.2.isEmpty)).map (fun p => p.1)).isEmpty = false :=
      Bool.eq_false_iff.2 hord
    have hrec' : toposortLoop ((data.filter
        (fun p => !((data.filter (fun p => p.2.isEmpty)).map (fun p => p.1)).contains p.1)).map
        (fun p => (p.1, p.2.filter
          (fun d => !((data.filter (fun p => p.2.isEmpty)).map (fun p => p.1)).contains d))))
        = .ok out' := hrec
    rw [toposortLoop.eq_def] at h
    simp only [hord', hrec', Bool.false_eq_true, if_false] at h
    injection h with h
    intro k hk
    rcases List.mem_map.1 hk with ⟨p, hp, rfl⟩
    by_cases hko : p.1 ∈ (data.filter (fun p => p.2.isEmpty)).map (fun p => p.1)
    · rw [← h]
      exact List.mem_append_left _ ((mem_sortStrs _ _).2 hko)
    · rw [← h]
      refine List.mem_append_right _ ?_
      refine ih out' hrec p.1 ?_
      have hcont : ((data.filter (fun p => p.2.isEmpty)).map (fun p => p.1)).contains p.1 = false := by
        by_contra hc
        exact hko (List.mem_of_elem_eq_true (by simpa using hc))
      have hpf : p ∈ data.filter
          (fun q => !((data.filter (fun p => p.2.isEmpty)).map (fun p => p.1)).contains q.1) := by
        refine List.mem_filter.2 ⟨hp, by rw [hcont]; rfl⟩
      have hmm := List.mem_map_of_mem
        (fun q : String × List String => (q.1, q.2.filter
          (fun d => !((data.filter (fun p => p.2.isEmpty)).map (fun p => p.1)).contains d))) hpf
      have hfinal : (fun q : String × List String => (q.1, q.2.filter
          (fun d => !((data.filter (fun p => p.2.isEmpty)).map
            (fun p => p.1)).contains d))) p ∈ rest := hmm
      simpa using List.mem_map_of_mem Prod.fst hfinal
  | case4 data ordered hord rest e hrec =>
    intro out h
    exfalso
    have hord' : ((data.filter (fun p => p.2.isEmpty)).map (fun p => p.1)).isEmpty = false :=
      Bool.eq_false_iff.2 hord
    have hrec' : toposortLoop ((data.filter
        (fun p => !((data.filter (fun p => p.2.isEmpty)).map (fun p => p.1)).contains p.1)).map
        (fun p => (p.1, p.2.filter
          (fun d => !((data.filter (fun p => p.2.isEmpty)).map (fun p => p.1)).contains d))))
        = .error e := hrec
    rw [toposortLoop.eq_def] at h
    simp only [hord', hrec', Bool.false_eq_true, if_false] at h
    exact Except.noConfusion h

theorem foldl_addNode_keys_mono (xs : List String) (k : String) :
    ∀ td : List (String × List String), isKey td k = true →
      isKey (xs.foldl (fun d x => if isKey d x = true then d else d ++ [(x, [])]) td) k
        = true := by
  induction xs with
  | nil => exact fun td h => h
  | cons x rest ih =>
    intro td h
    simp only [List.foldl_cons]
    apply ih
    split
    · exact h
    · rw [isKey_append, h]; rfl

theorem foldl_addNode_mem_key (xs : List String) (k : String) (hk : k ∈ xs) :
    ∀ td : List (String × List String),
      isKey (xs.foldl (fun d x => if isKey d x = true then d else d ++ [(x, [])]) td) k
        = true := by
  induction xs with
  | nil => simp at hk
  | cons x rest ih =>
    intro td
    simp only [List.foldl_cons]
    rcases List.mem_cons.1 hk with rfl | hk'
    · apply foldl_addNode_keys_mono
      split
      · assumption
      · rw [isKey_append]
        simp [isKey]
    · exact ih hk' _

theorem toposort_flatten_complete (data : List (String × List String)) (out : List String)
    (h : toposort_flatten data = .ok out) :
    ∀ p ∈ data, p.1 ∈ out ∧ ∀ x ∈ p.2, x ∈ out := by
  simp only [toposort_flatten] at h
  set d1 : List (String × List String) :=
    data.map (fun p => (p.1, p.2.filter (fun x => x != p.1))) with hd1
  set extra : List String := (d1.flatMap (fun p => p.2)).filter (fun x => !isKey d1 x)
    with hextra
  have hkeyout : ∀ k, isKey d1 k = true → k ∈ out := by
    intro k hk
    have hk2 := foldl_addNode_keys_mono extra k d1 hk
    exact toposortLoop_complete _ out h k ((isKey_iff_mem_keys _ _).1 hk2)
  intro p hp
  have hp1 : p.1 ∈ out := by
    apply hkeyout
    exact isKey_of_mem (d := d1) (p := (p.1, p.2.filter (fun x => x != p.1)))
      (List.mem_map_of_mem
        (fun p : String × List String => (p.1, p.2.filter (fun x => x != p.1))) hp)
  refine ⟨hp1, ?_⟩
  intro x hx
  by_cases hxp : x = p.1
  · subst hxp; exact hp1
  · by_cases hik : isKey d1 x = true
    · exact hkeyout x hik
    · have hxflat : x ∈ d1.flatMap (fun p => p.2) := by
        refine List.mem_flatMap.2 ⟨(p.1, p.2.filter (fun y => y != p.1)), ?_, ?_⟩
        · exact List.mem_map_of_mem
            (fun p : String × List String => (p.1, p.2.filter (fun x => x != p.1))) hp
        · exact List.mem_filter.2 ⟨hx, by simp [hxp]⟩
      have hxe : x ∈ extra := by
        rw [hextra]
        exact List.mem_filter.2 ⟨hxflat, by simp [hik]⟩
      have hk2 := foldl_addNode_mem_key extra x hxe d1
      exact toposortLoop_complete _ out h x ((isKey_iff_mem_keys _ _).1 hk2)

theorem register_features_ok_inv (default_features entry_point_features : List Feature)
    (config_dependencies : List (String × List String)) (sorted : List String)
    (regs : List Feature)
    (h : register_features default_features entry_point_features config_dependencies
      = .ok (sorted, regs)) :
    toposort_flatten (mergeConfigDependencies
      (_prepare_dependencies_data
        (entrypointFeaturesDict default_features entry_point_features)).2
      config_dependencies) = .ok sorted ∧
    regs = sorted.filterMap (fun feature_name =>
      ((entrypointFeaturesDict default_features entry_point_features).find?
        (fun p => p.1 == feature_name)).map (fun nf => nf.2)) := by
  simp only [register_features, bind, Except.bind] at h
  cases hc : _check_missing_dependencies
      (entrypointFeaturesDict default_features entry_point_features)
      (_prepare_dependencies_data
        (entrypointFeaturesDict default_features entry_point_features)).1 with
  | error e => rw [hc] at h; simp at h
  | ok u =>
  simp only [hc] at h
  cases hf : toposort_flatten (mergeConfigDependencies
      (_prepare_dependencies_data
        (entrypointFeaturesDict default_features entry_point_features)).2
      config_dependencies) with
  | error e => rw [hf] at h; simp at h
  | ok sorted' =>
  simp only [hf] at h
  cases hr : (sorted'.filterMap (fun feature_name =>
      ((entrypointFeaturesDict default_features entry_point_features).find?
        (fun p => p.1 == feature_name)).map (fun nf => nf.2))).foldlM
        (Registry.register Feature.name) [] with
  | error e => rw [hr] at h; simp at h
  | ok regs' =>
  simp only [hr, pure, Except.pure, Except.ok.injEq, Prod.mk.injEq] at h
  obtain ⟨hs, hregs⟩ := h
  subst hs
  subst hregs
  exact ⟨rfl, (foldlM_register_ok Feature.name _ [] regs' hr).trans (by simp)⟩

theorem dictSet_forall {α : Type} (P : String × α → Prop) (d : List (String × α))
    (k : String) (v : α) (hd : ∀ p ∈ d, P p) (hkv : P (k, v)) :
    ∀ p ∈ dictSet d k v, P p := by
  unfold dictSet
  split
  · intro p hp
    rcases List.mem_map.1 hp with ⟨q, hq, rfl⟩
    by_cases h : q.1 = k
    · simpa [h] using hkv
    · simpa [h] using hd q hq
  · intro p hp
    rcases List.mem_append.1 hp with hp' | hp'
    · exact hd p hp'
    · rw [List.mem_singleton.1 hp']; exact hkv

theorem entrypointFeaturesDict_name (default_features entry_point_features : List Feature) :
    ∀ p ∈ entrypointFeaturesDict default_features entry_point_features, p.2.name = p.1 := by
  unfold entrypointFeaturesDict
  generalize default_features ++ entry_point_features = fs
  have key : ∀ (fs : List Feature) (d : List (String × Feature)),
      (∀ p ∈ d, p.2.name = p.1) →
      ∀ p ∈ fs.foldl (fun d f => dictSet d f.name f) d, p.2.name = p.1 := by
    intro fs
    induction fs with
    | nil => exact fun d hd => hd
    | cons f rest ih =>
      intro d hd
      simp only [List.foldl_cons]
      exact ih _ (dictSet_forall _ d f.name f hd rfl)
  exact key fs [] (by simp)

theorem registered_feature_key (default_features entry_point_features : List Feature)
    (sorted : List String) (f : Feature)
    (hf : f ∈ sorted.filterMap (fun feature_name =>
      ((entrypointFeaturesDict default_features entry_point_features).find?
        (fun p => p.1 == feature_name)).map (fun nf => nf.2))) :
    isKey (entrypointFeaturesDict default_features entry_point_features) f.name = true := by
  rcases List.mem_filterMap.1 hf with ⟨k, hk, hfind⟩
  rcases Option.map_eq_some'.1 hfind with ⟨nf, hnf, rfl⟩
  have hmem := List.mem_of_find?_eq_some hnf
  have hname := entrypointFeaturesDict_name default_features entry_point_features nf hmem
  rw [hname]
  exact isKey_of_mem hmem

/-- C8: a feature name that appears as a key of the externally supplied
`dependencies` override mapping but not in the discovered feature set is
still added to the toposort data as a graph node (initialised with an empty
dependency set before its override edges are merged), so the topological
sort does not fail on a missing key — on success the name appears in the
sorted output — and no Feature instance is registered for that name. -/
theorem register_features_override_only_node
    (default_features entry_point_features : List Feature)
    (config_dependencies : List (String × List String)) (n : String)
    (hn : ∃ e ∈ config_dependencies, e.1 = n)
    (hmiss : isKey (entrypointFeaturesDict default_features entry_point_features) n
      = false) :
    isKey (mergeConfigDependencies
      (_prepare_dependencies_data
        (entrypointFeaturesDict default_features entry_point_features)).2
      config_dependencies) n = true ∧
    ∀ sorted regs,
      register_features default_features entry_point_features config_dependencies
        = .ok (sorted, regs) →
      n ∈ sorted ∧ ∀ f ∈ regs, f.name ≠ n := by
  have hkey := mergeConfigDependencies_isKey config_dependencies n
    (_prepare_dependencies_data
      (entrypointFeaturesDict default_features entry_point_features)).2 (Or.inr hn)
  refine ⟨hkey, ?_⟩
  intro sorted regs h
  obtain ⟨hflat, hregs⟩ := register_features_ok_inv _ _ _ _ _ h
  constructor
  · rcases exists_entry_of_isKey _ n hkey with ⟨v, hv⟩
    exact (toposort_flatten_complete _ _ hflat (n, v) hv).1
  · intro f hf hfn
    rw [hregs] at hf
    have hkf := registered_feature_key default_features entry_point_features sorted f hf
    rw [hfn] at hkf
    simp [hmiss] at hkf

/-- C9: dependency edges added from the configuration `dependencies` override
are exempt from the missing-required-dependency check: the check runs before
the merge, so an override naming a never-discovered dependency raises no
error — the check succeeds, and the unknown name flows through the
topological sort as a graph node (appearing in the sorted output on success)
while being silently skipped at registration time. -/
theorem override_dependencies_exempt_from_check
    (default_features entry_point_features : List Feature)
    (config_dependencies : List (String × List String)) (f0 d : String)
    (hreq : ∀ p ∈ entrypointFeaturesDict default_features entry_point_features,
      ∀ x ∈ p.2.dependencies, (!x.endsWith "[optional]") = true →
        isKey (entrypointFeaturesDict default_features entry_point_features) x = true)
    (hov : ∃ e ∈ config_dependencies, e.1 = f0 ∧ d ∈ e.2)
    (hmiss : isKey (entrypointFeaturesDict default_features entry_point_features) d
      = false) :
    _check_missing_dependencies (entrypointFeaturesDict default_features entry_point_features)
      (_prepare_dependencies_data
        (entrypointFeaturesDict default_features entry_point_features)).1 = .ok () ∧
    ∀ sorted regs,
      register_features default_features entry_point_features config_dependencies
        = .ok (sorted, regs) →
      d ∈ sorted ∧ ∀ f ∈ regs, f.name ≠ d := by
  constructor
  · apply check_missing_ok
    intro nr hnr x hx
    rw [prepare_dependencies_data_fst] at hnr
    rcases List.mem_map.1 hnr with ⟨p, hp, rfl⟩
    have hx' := List.mem_filter.1 hx
    exact hreq p hp x hx'.1 hx'.2
  · intro sorted regs h
    obtain ⟨hflat, hregs⟩ := register_features_ok_inv _ _ _ _ _ h
    constructor
    · rcases mergeConfigDependencies_entry config_dependencies f0 d _ hov with ⟨v, hv, hdv⟩
      exact (toposort_flatten_complete _ _ hflat (f0, v) hv).2 d hdv
    · intro f hf hfn
      rw [hregs] at hf
      have hkf := registered_feature_key default_features entry_point_features sorted f hf
      rw [hfn] at hkf
      simp [hmiss] at hkf

theorem register_features_override_only_node_witness :
    isKey (mergeConfigDependencies
      (_prepare_dependencies_data (entrypointFeaturesDict [sampleFeatureAlpha] [])).2
      [("ghost", [])]) "ghost" = true ∧
    ∀ sorted regs,
      register_features [sampleFeatureAlpha] [] [("ghost", [])] = .ok (sorted, regs) →
      "ghost" ∈ sorted ∧ ∀ f ∈ regs, f.name ≠ "ghost" :=
  register_features_override_only_node [sampleFeatureAlpha] [] [("ghost", [])] "ghost"
    (by decide) (by decide)

theorem override_dependencies_exempt_from_check_witness :
    _check_missing_dependencies (entrypointFeaturesDict [sampleFeatureAlpha] [])
      (_prepare_dependencies_data (entrypointFeaturesDict [sampleFeatureAlpha] [])).1
      = .ok () ∧
    ∀ sorted regs,
      register_features [sampleFeatureAlpha] [] [("alpha", ["ghost"])] = .ok (sorted, regs) →
      "ghost" ∈ sorted ∧ ∀ f ∈ regs, f.name ≠ "ghost" :=
  override_dependencies_exempt_from_check [sampleFeatureAlpha] [] [("alpha", ["ghost"])]
    "alpha" "ghost" (by decide) (by decide) (by decide)

theorem mem_insertByOrder (a c : Nat × DdbAction) (l : List (Nat × DdbAction)) :
    c ∈ insertByOrder a l ↔ c = a ∨ c ∈ l := by
  induction l with
  | nil => simp [insertByOrder]
  | cons b t ih =>
    unfold insertByOrder
    split
    · simp [List.mem_cons]
    · simp [List.mem_cons, ih]
      tauto

theorem mem_sortActionsByOrder (c : Nat × DdbAction) (l : List (Nat × DdbAction)) :
    c ∈ sortActionsByOrder l ↔ c ∈ l := by
  induction l with
  | nil => simp [sortActionsByOrder]
  | cons a t ih => simp [sortActionsByOrder, mem_insertByOrder, ih]

theorem actionLex_le {x y : Nat × DdbAction}
    (h : x.2.order < y.2.order ∨ (x.2.order = y.2.order ∧ x.1 < y.1)) :
    x.2.order ≤ y.2.order := by
  rcases h with h | ⟨h, -⟩
  · exact le_of_lt h
  · exact le_of_eq h

theorem pairwise_insertByOrder (a : Nat × DdbAction) (l : List (Nat × DdbAction))
    (hl : l.Pairwise (fun x y => x.2.order < y.2.order ∨
      (x.2.order = y.2.order ∧ x.1 < y.1)))
    (hidx : ∀ b ∈ l, a.1 < b.1) :
    (insertByOrder a l).Pairwise (fun x y => x.2.order < y.2.order ∨
      (x.2.order = y.2.order ∧ x.1 < y.1)) := by
  induction l with
  | nil => simp [insertByOrder]
  | cons b t ih =>
    rcases List.pairwise_cons.1 hl with ⟨hb, ht⟩
    unfold insertByOrder
    split
    · refine List.pairwise_cons.2 ⟨?_, hl⟩
      intro c hc
      rcases List.mem_cons.1 hc with rfl | hct
      · rcases lt_or_eq_of_le (by assumption : a.2.order ≤ c.2.order) with h | h
        · exact Or.inl h
        · exact Or.inr ⟨h, hidx c (List.mem_cons_self _ _)⟩
      · have hbc := hb c hct
        have h1 : a.2.order ≤ c.2.order :=
          le_trans (by assumption) (actionLex_le hbc)
        rcases lt_or_eq_of_le h1 with h | h
        · exact Or.inl h
        · exact Or.inr ⟨h, hidx c (List.mem_cons_of_mem _ hct)⟩
    · refine List.pairwise_cons.2 ⟨?_, ?_⟩
      · intro c hc
        rcases (mem_insertByOrder a c t).1 hc with rfl | hct
        · exact Or.inl (by omega)
        · exact hb c hct
      · exact ih ht (fun b' hb' => hidx b' (List.mem_cons_of_mem _ hb'))

theorem pairwise_sortActionsByOrder (l : List (Nat × DdbAction))
    (hl : l.Pairwise (fun x y => x.1 < y.1)) :
    (sortActionsByOrder l).Pairwise (fun x y => x.2.order < y.2.order ∨
      (x.2.order = y.2.order ∧ x.1 < y.1)) := by
  induction l with
  | nil => simp [sortActionsByOrder]
  | cons a t ih =>
    rcases List.pairwise_cons.1 hl with ⟨ha, ht⟩
    unfold sortActionsByOrder
    refine pairwise_insertByOrder a _ (ih ht) ?_
    intro b hb
    exact ha b ((mem_sortActionsByOrder b t).1 hb)

theorem mem_enumFrom_le (l : List DdbAction) :
    ∀ (n : Nat) (p : Nat × DdbAction), p ∈ List.enumFrom n l → n ≤ p.1 := by
  induction l with
  | nil => intro n p hp; simp [List.enumFrom] at hp
  | cons x t ih =>
    intro n p hp
    rcases List.mem_cons.1 hp with rfl | hp'
    · exact le_refl n
    · exact le_trans (Nat.le_succ n) (ih (n + 1) p hp')

theorem pairwise_enumFrom (l : List DdbAction) :
    ∀ n : Nat, (List.enumFrom n l).Pairwise (fun x y => x.1 < y.1) := by
  induction l with
  | nil => intro n; simp [List.enumFrom]
  | cons x t ih =>
    intro n
    refine List.pairwise_cons.2 ⟨?_, ih (n + 1)⟩
    intro p hp
    exact lt_of_lt_of_le (Nat.lt_succ_self n) (mem_enumFrom_le t (n + 1) p hp)

theorem actionBusSubscriptions_fields (fail_fast : Bool) (idx : Nat) (a : DdbAction) :
    ∀ s ∈ actionBusSubscriptions fail_fast idx a,
      s.action_order = a.order ∧ s.action_index = idx := by
  intro s hs
  unfold actionBusSubscriptions at hs
  cases hb : a.event_bindings with
  | single e =>
    rw [hb] at hs
    rcases List.mem_singleton.1 hs with rfl
    exact ⟨rfl, rfl⟩
  | list items =>
    rw [hb] at hs
    rcases List.mem_map.1 hs with ⟨item, hitem, rfl⟩
    cases item <;> exact ⟨rfl, rfl⟩

theorem pairwise_flatMap {α β : Type} (R : β → β → Prop) (Rp : α → α → Prop)
    (f : α → List β) (l : List α) (hl : l.Pairwise Rp)
    (hwithin : ∀ x ∈ l, (f x).Pairwise R)
    (hacross : ∀ x y, Rp x y → ∀ b1 ∈ f x, ∀ b2 ∈ f y, R b1 b2) :
    (l.flatMap f).Pairwise R := by
  induction l with
  | nil => simp
  | cons x rest ih =>
    rcases List.pairwise_cons.1 hl with ⟨hx, hrest⟩
    simp only [List.flatMap_cons]
    rw [List.pairwise_append]
    refine ⟨hwithin x (List.mem_cons_self _ _), ih hrest
      (fun y hy => hwithin y (List.mem_cons_of_mem _ hy)), ?_⟩
    intro b1 hb1 b2 hb2
    rcases List.mem_flatMap.1 hb2 with ⟨y, hy, hb2'⟩
    exact hacross x y (hx y hy) b1 hb1 b2 hb2'

/-- C1: for every set of registered enabled actions,
`register_actions_in_event_bus` subscribes runners so that, under each event
name, the handlers the bus will invoke (in registration order) are in
ascending action `order`, and two handlers of equal `order` keep the
registration order of their actions (the registry order, which follows the
topological feature order). -/
theorem register_actions_in_event_bus_ordered (fail_fast : Bool)
    (acts : List DdbAction) (event_name : String) :
    ((register_actions_in_event_bus fail_fast acts).filter
        (fun s => s.event_name == event_name)).Pairwise
      (fun s1 s2 => s1.action_order < s2.action_order ∨
        (s1.action_order = s2.action_order ∧ s1.action_index ≤ s2.action_index)) := by
  refine List.Pairwise.sublist (List.filter_sublist _) ?_
  unfold register_actions_in_event_bus
  refine pairwise_flatMap _ (fun x y => x.2.order < y.2.order ∨
    (x.2.order = y.2.order ∧ x.1 < y.1)) _ _
    (pairwise_sortActionsByOrder _ (pairwise_enumFrom acts 0)) ?_ ?_
  · intro x hx
    have hfields := actionBusSubscriptions_fields fail_fast x.1 x.2
    have : ∀ s1 ∈ actionBusSubscriptions fail_fast x.1 x.2,
        ∀ s2 ∈ actionBusSubscriptions fail_fast x.1 x.2,
        s1.action_order < s2.action_order ∨
          (s1.action_order = s2.action_order ∧ s1.action_index ≤ s2.action_index) := by
      intro s1 h1 s2 h2
      obtain ⟨ho1, hi1⟩ := hfields s1 h1
      obtain ⟨ho2, hi2⟩ := hfields s2 h2
      exact Or.inr ⟨by rw [ho1, ho2], by rw [hi1, hi2]⟩
    exact List.pairwise_of_forall_mem_list this
  · intro x y hxy b1 hb1 b2 hb2
    obtain ⟨ho1, hi1⟩ := actionBusSubscriptions_fields fail_fast x.1 x.2 b1 hb1
    obtain ⟨ho2, hi2⟩ := actionBusSubscriptions_fields fail_fast y.1 y.2 b2 hb2
    rcases hxy with h | ⟨h, hi⟩
    · exact Or.inl (by rw [ho1, ho2]; exact h)
    · exact Or.inr ⟨by rw [ho1, ho2]; exact h, by rw [hi1, hi2]; exact le_of_lt hi⟩

theorem flatMap_congr_forall₂ {α β : Type} (f g : α → List β) (l1 l2 : List α)
    (h : List.Forall₂ (fun x y => f x = g y) l1 l2) :
    l1.flatMap f = l2.flatMap g := by
  induction h with
  | nil => rfl
  | cons hxy htail ih => simp only [List.flatMap_cons, hxy, ih]

theorem insertByOrder_congr (fail_fast : Bool) (x y : Nat × DdbAction)
    (hxy : x.2.order = y.2.order ∧
      actionBusSubscriptions fail_fast x.1 x.2 = actionBusSubscriptions fail_fast y.1 y.2) :
    ∀ l1 l2, List.Forall₂ (fun u v => u.2.order = v.2.order ∧
        actionBusSubscriptions fail_fast u.1 u.2 = actionBusSubscriptions fail_fast v.1 v.2)
      l1 l2 →
      List.Forall₂ (fun u v => u.2.order = v.2.order ∧
        actionBusSubscriptions fail_fast u.1 u.2 = actionBusSubscriptions fail_fast v.1 v.2)
        (insertByOrder x l1) (insertByOrder y l2) := by
  intro l1 l2 h
  induction h with
  | nil => exact .cons hxy .nil
  | @cons a b t1 t2 hab htail ih =>
    unfold insertByOrder
    by_cases hc : x.2.order ≤ a.2.order
    · rw [if_pos hc, if_pos (by rw [← hxy.1, ← hab.1]; exact hc)]
      exact .cons hxy (.cons hab htail)
    · rw [if_neg hc, if_neg (by rw [← hxy.1, ← hab.1]; exact hc)]
      exact .cons hab ih

theorem sortActionsByOrder_congr (fail_fast : Bool) :
    ∀ l1 l2, List.Forall₂ (fun u v => u.2.order = v.2.order ∧
        actionBusSubscriptions fail_fast u.1 u.2 = actionBusSubscriptions fail_fast v.1 v.2)
      l1 l2 →
      List.Forall₂ (fun u v => u.2.order = v.2.order ∧
        actionBusSubscriptions fail_fast u.1 u.2 = actionBusSubscriptions fail_fast v.1 v.2)
        (sortActionsByOrder l1) (sortActionsByOrder l2) := by
  intro l1 l2 h
  induction h with
  | nil => exact .nil
  | cons hxy htail ih => exact insertByOrder_congr _ _ _ hxy _ _ ih

theorem enumFrom_congr (fail_fast : Bool) :
    ∀ (l1 l2 : List DdbAction), List.Forall₂ (fun a b => a.order = b.order ∧
        ∀ i, actionBusSubscriptions fail_fast i a = actionBusSubscriptions fail_fast i b)
      l1 l2 →
    ∀ n, List.Forall₂ (fun u v => u.2.order = v.2.order ∧
        actionBusSubscriptions fail_fast u.1 u.2 = actionBusSubscriptions fail_fast v.1 v.2)
      (List.enumFrom n l1) (List.enumFrom n l2) := by
  intro l1 l2 h
  induction h with
  | nil => intro n; exact .nil
  | @cons a b t1 t2 hab htail ih =>
    intro n
    exact .cons ⟨hab.1, hab.2 n⟩ (ih (n + 1))

theorem forall₂_self {α : Type} (R : α → α → Prop) (l : List α) (h : ∀ a ∈ l, R a a) :
    List.Forall₂ R l l := by
  induction l with
  | nil => exact .nil
  | cons x t ih =>
    exact .cons (h x (List.mem_cons_self _ _)) (ih (fun a ha => h a (List.mem_cons_of_mem _ ha)))

theorem forall₂_append {α β : Type} (R : α → β → Prop) {l1 l3 : List α} {l2 l4 : List β}
    (h1 : List.Forall₂ R l1 l2) (h2 : List.Forall₂ R l3 l4) :
    List.Forall₂ R (l1 ++ l3) (l2 ++ l4) := by
  induction h1 with
  | nil => exact h2
  | cons hab htail ih => exact .cons hab ih

/-- C7: an action whose `event_bindings` is the single string E is bound to
the event bus identically to the same action declaring the one-element list
[E]: each yields exactly one runner under event E with the default method
(no alternate method name) and the given `fail_fast` policy, and replacing
one declaration by the other anywhere in the registered action list yields
the very same bus subscription list — in particular the same position in
the ordering. -/
theorem event_bindings_single_eq_singleton_list (fail_fast : Bool) (E nm : String)
    (od : Int) (dis : Bool) (pre suf : List DdbAction) :
    (∀ idx, actionBusSubscriptions fail_fast idx
        { name := nm, order := od, disabled := dis, event_bindings := .single E }
        = [{ event_name := E, action_name := nm, action_index := idx, action_order := od,
             method_name := none, fail_fast := fail_fast }] ∧
      actionBusSubscriptions fail_fast idx
        { name := nm, order := od, disabled := dis, event_bindings := .list [.str E] }
        = [{ event_name := E, action_name := nm, action_index := idx, action_order := od,
             method_name := none, fail_fast := fail_fast }]) ∧
    register_actions_in_event_bus fail_fast
        (pre ++ { name := nm, order := od, disabled := dis,
                  event_bindings := .single E } :: suf)
      = register_actions_in_event_bus fail_fast
        (pre ++ { name := nm, order := od, disabled := dis,
                  event_bindings := .list [.str E] } :: suf) := by
  refine ⟨fun idx => ⟨rfl, rfl⟩, ?_⟩
  unfold register_actions_in_event_bus
  apply flatMap_congr_forall₂
  refine (sortActionsByOrder_congr fail_fast _ _ ?_).imp (fun u v h => h.2)
  refine enumFrom_congr fail_fast _ _ ?_ 0
  refine forall₂_append _ (forall₂_self _ pre (fun a _ => ⟨rfl, fun i => rfl⟩)) ?_
  exact .cons ⟨rfl, fun i => rfl⟩ (forall₂_self _ suf (fun a _ => ⟨rfl, fun i => rfl⟩))

/-- One hex digit is a printable ASCII character. -/
theorem hexDigit_lt (n : Nat) (h : n < 16) : hexDigit n < 0x80 := by
  unfold hexDigit; split <;> omega

theorem hex4_ascii' (n : Nat) : ∀ x ∈ hex4 n, x < 0x80 := by
  intro x hx
  simp only [hex4, List.mem_cons, List.not_mem_nil, or_false] at hx
  rcases hx with rfl | rfl | rfl | rfl <;> exact hexDigit_lt _ (by omega)

/-- `json.dumps` escaping emits only ASCII characters. -/
theorem escChar_ascii' (c : Nat) : ∀ x ∈ escChar c, x < 0x80 := by
  intro x hx
  unfold escChar at hx
  split_ifs at hx with h1 h2 h3 h4 h5 h6 h7 h8 h9
  all_goals simp only [List.mem_cons, List.mem_append, List.not_mem_nil, or_false] at hx
  · rcases hx with rfl | rfl <;> omega
  · rcases hx with rfl | rfl <;> omega
  · rcases hx with rfl | rfl <;> omega
  · rcases hx with rfl | rfl <;> omega
  · rcases hx with rfl | rfl <;> omega
  · rcases hx with rfl | rfl <;> omega
  · rcases hx with rfl | rfl <;> omega
  · rcases hx with rfl; omega
  · rcases hx with rfl | rfl | hx
    · omega
    · omega
    · exact hex4_ascii' _ _ hx
  · rcases hx with (rfl | rfl | hx) | (rfl | rfl | hx)
    · omega
    · omega
    · exact hex4_ascii' _ _ hx
    · omega
    · omega
    · exact hex4_ascii' _ _ hx

theorem dumpsPairs_ascii (d : List (List Nat × List Nat)) :
    ∀ x ∈ dumpsPairs d, x < 0x80 := by
  induction d with
  | nil => intro x hx; simp [dumpsPairs] at hx
  | cons p rest ih =>
    match rest with
    | [] =>
      intro x hx
      simp only [dumpsPairs, jsonStringLit, escStr, List.mem_append, List.mem_cons,
        List.mem_flatMap, List.not_mem_nil, or_false] at hx
      casesm* _ ∨ _, Exists _, _ ∧ _
      all_goals first
        | omega
        | exact escChar_ascii' _ _ (by assumption)
    | q :: rest' =>
      intro x hx
      simp only [dumpsPairs, jsonStringLit, escStr, List.mem_append, List.mem_cons,
        List.mem_flatMap, List.not_mem_nil, or_false] at hx
      casesm* _ ∨ _, Exists _, _ ∧ _
      all_goals first
        | omega
        | exact escChar_ascii' _ _ (by assumption)
        | exact ih _ (by assumption)

/-- `json.dumps` output is pure ASCII (`ensure_ascii=True`). -/
theorem json_dumps_ascii (d : List (List Nat × List Nat)) :
    ∀ x ∈ json_dumps d, x < 0x80 := by
  intro x hx
  simp only [json_dumps, List.mem_cons, List.mem_append, List.not_mem_nil, or_false] at hx
  casesm* _ ∨ _
  all_goals first
    | omega
    | exact dumpsPairs_ascii _ _ (by assumption)

/-- `str.encode("utf-8")` is the identity on ASCII code points. -/
theorem utf8Encode_ascii (s : List Nat) (h : ∀ c ∈ s, c < 0x80) :
    utf8Encode s = some s := by
  induction s with
  | nil => rfl
  | cons c rest ih =>
    have hc : c < 0x80 := h c (List.mem_cons_self ..)
    have hrest := ih fun x hx => h x (List.mem_cons_of_mem _ hx)
    simp only [utf8Encode, utf8EncodeChar, if_pos hc, hrest]
    rfl

theorem utf8DecodeChar_ascii (b : Nat) (rest : List Nat) (h : b < 0x80) :
    utf8DecodeChar b rest = some (b, rest) := by
  unfold utf8DecodeChar; rw [if_pos h]

/-- The UTF-8 byte loop is the identity on ASCII bytes. -/
theorem utf8DecodeLoop_ascii (bs : List Nat) (fuel : Nat) (hf : bs.length < fuel)
    (h : ∀ b ∈ bs, b < 0x80) : utf8DecodeLoop fuel bs = some bs := by
  induction bs generalizing fuel with
  | nil =>
    cases fuel with
    | zero => omega
    | succ f => rfl
  | cons b rest ih =>
    cases fuel with
    | zero => simp at hf
    | succ f =>
      have hb : b < 0x80 := h b (List.mem_cons_self ..)
      rw [utf8DecodeLoop, utf8DecodeChar_ascii _ _ hb]
      simp [ih f (by simp at hf ⊢; omega) (fun x hx => h x (List.mem_cons_of_mem _ hx))]

/-- `bytes.decode("utf-8")` is the identity on ASCII bytes. -/
theorem utf8Decode_ascii (bs : List Nat) (h : ∀ b ∈ bs, b < 0x80) :
    utf8Decode bs = some bs :=
  utf8DecodeLoop_ascii bs _ (Nat.lt_succ_self _) h

/-- `str.encode("ascii")` is the identity on ASCII code points. -/
theorem asciiEncode_ascii (s : List Nat) (h : ∀ c ∈ s, c < 0x80) :
    asciiEncode s = some s := by
  induction s with
  | nil => rfl
  | cons c rest ih =>
    have hc : c < 0x80 := h c (List.mem_cons_self ..)
    have hrest := ih fun x hx => h x (List.mem_cons_of_mem _ hx)
    simp only [asciiEncode, if_pos hc, hrest]

/-- Base64 alphabet characters are ASCII. -/
theorem b64Char_lt (n : Nat) : b64Char n < 0x80 := by
  unfold b64Char; split_ifs <;> omega

/-- No base64 alphabet character is the padding character. -/
theorem b64Char_ne_pad (n : Nat) : b64Char n ≠ 0x3D := by
  unfold b64Char; split_ifs <;> omega

/-- Decoding inverts the alphabet on 6-bit values. -/
theorem b64DecChar_b64Char (n : Nat) (h : n < 64) :
    b64DecChar (b64Char n) = some n := by
  unfold b64Char b64DecChar
  split_ifs <;> first
    | (simp only [Option.some.injEq]; omega)
    | omega

/-- `b64encode` output is ASCII. -/
theorem b64encode_ascii (bs : List Nat) : ∀ x ∈ b64encode bs, x < 0x80 := by
  induction bs using b64encode.induct with
  | case1 a b c rest ih =>
    intro x hx
    simp only [b64encode, List.mem_cons] at hx
    rcases hx with rfl | rfl | rfl | rfl | hx
    · exact b64Char_lt _
    · exact b64Char_lt _
    · exact b64Char_lt _
    · exact b64Char_lt _
    · exact ih _ hx
  | case2 a b =>
    intro x hx
    simp only [b64encode, List.mem_cons, List.not_mem_nil, or_false] at hx
    rcases hx with rfl | rfl | rfl | rfl
    · exact b64Char_lt _
    · exact b64Char_lt _
    · exact b64Char_lt _
    · omega
  | case3 a =>
    intro x hx
    simp only [b64encode, List.mem_cons, List.not_mem_nil, or_false] at hx
    rcases hx with rfl | rfl | rfl | rfl
    · exact b64Char_lt _
    · exact b64Char_lt _
    · omega
    · omega
  | case4 =>
    intro x hx
    simp [b64encode] at hx

/-- Every character `b64encode` emits passes the `a2b_base64` filter. -/
theorem b64encode_filter (bs : List Nat) (h : ∀ b ∈ bs, b < 256) :
    (b64encode bs).filter (fun c => (b64DecChar c).isSome || c == 0x3D)
      = b64encode bs := by
  rw [List.filter_eq_self]
  induction bs using b64encode.induct with
  | case1 a b c rest ih =>
    intro x hx
    simp only [b64encode, List.mem_cons] at hx
    have ha : a < 256 := h a (by simp)
    have hb : b < 256 := h b (by simp)
    have hc : c < 256 := h c (by simp)
    rcases hx with rfl | rfl | rfl | rfl | hx
    · simp [b64DecChar_b64Char (a / 4) (by omega)]
    · simp [b64DecChar_b64Char (a % 4 * 16 + b / 16) (by omega)]
    · simp [b64DecChar_b64Char (b % 16 * 4 + c / 64) (by omega)]
    · simp [b64DecChar_b64Char (c % 64) (by omega)]
    · exact ih (fun y hy => h y (by simp [hy])) _ hx
  | case2 a b =>
    intro x hx
    have ha : a < 256 := h a (by simp)
    have hb : b < 256 := h b (by simp)
    simp only [b64encode, List.mem_cons, List.not_mem_nil, or_false] at hx
    rcases hx with rfl | rfl | rfl | rfl
    · simp [b64DecChar_b64Char (a / 4) (by omega)]
    · simp [b64DecChar_b64Char (a % 4 * 16 + b / 16) (by omega)]
    · simp [b64DecChar_b64Char (b % 16 * 4) (by omega)]
    · simp
  | case3 a =>
    intro x hx
    have ha : a < 256 := h a (by simp)
    simp only [b64encode, List.mem_cons, List.not_mem_nil, or_false] at hx
    rcases hx with rfl | rfl | rfl | rfl
    · simp [b64DecChar_b64Char (a / 4) (by omega)]
    · simp [b64DecChar_b64Char (a % 4 * 16) (by omega)]
    · simp
    · simp
  | case4 =>
    intro x hx
    simp [b64encode] at hx

/-- Decoding four-character groups inverts `b64encode`. -/
theorem b64decodeGroups_b64encode (bs : List Nat) (h : ∀ b ∈ bs, b < 256) :
    b64decodeGroups (b64encode bs) = some bs := by
  induction bs using b64encode.induct with
  | case1 a b c rest ih =>
    have ha : a < 256 := h a (by simp)
    have hb : b < 256 := h b (by simp)
    have hc : c < 256 := h c (by simp)
    rw [b64encode, b64decodeGroups]
    simp only [b64DecChar_b64Char (a / 4) (by omega),
      b64DecChar_b64Char (a % 4 * 16 + b / 16) (by omega),
      b64DecChar_b64Char (b % 16 * 4 + c / 64) (by omega),
      b64DecChar_b64Char (c % 64) (by omega),
      if_neg (b64Char_ne_pad (b % 16 * 4 + c / 64)),
      if_neg (b64Char_ne_pad (c % 64)),
      ih (fun y hy => h y (by simp [hy]))]
    simp only [Option.some.injEq, List.cons.injEq]
    refine ⟨by omega, by omega, by omega, trivial⟩
  | case2 a b =>
    have ha : a < 256 := h a (by simp)
    have hb : b < 256 := h b (by simp)
    rw [b64encode, b64decodeGroups]
    simp only [b64DecChar_b64Char (a / 4) (by omega),
      b64DecChar_b64Char (a % 4 * 16 + b / 16) (by omega),
      b64DecChar_b64Char (b % 16 * 4) (by omega),
      if_neg (b64Char_ne_pad (b % 16 * 4))]
    simp
    omega
  | case3 a =>
    have ha : a < 256 := h a (by simp)
    rw [b64encode, b64decodeGroups]
    simp only [b64DecChar_b64Char (a / 4) (by omega),
      b64DecChar_b64Char (a % 4 * 16) (by omega)]
    simp
    omega
  | case4 => rfl

/-- `base64.b64decode` inverts `base64.b64encode` on byte strings. -/
theorem b64decode_b64encode (bs : List Nat) (h : ∀ b ∈ bs, b < 256) :
    b64decode (b64encode bs) = some bs := by
  rw [b64decode, b64encode_filter _ h, b64decodeGroups_b64encode _ h]

/-- `int(c, 16)` inverts the hex digit table. -/
theorem parseHexDigit_hexDigit (n : Nat) (h : n < 16) :
    parseHexDigit (hexDigit n) = some n := by
  unfold hexDigit parseHexDigit
  split_ifs <;> first
    | (simp only [Option.some.injEq]; omega)
    | omega

/-- `_decode_uXXXX` inverts the `'\u%04x'` formatting. -/
theorem hexVal4_hex4 (c : Nat) (h : c < 0x10000) :
    hexVal4 (hexDigit (c / 4096 % 16)) (hexDigit (c / 256 % 16))
      (hexDigit (c / 16 % 16)) (hexDigit (c % 16)) = some c := by
  unfold hexVal4
  rw [parseHexDigit_hexDigit _ (by omega), parseHexDigit_hexDigit _ (by omega),
    parseHexDigit_hexDigit _ (by omega), parseHexDigit_hexDigit _ (by omega)]
  simp only [Option.some.injEq]
  omega

theorem skipWs_ws (c : Nat) (s : List Nat)
    (h : c = 0x20 ∨ c = 0x09 ∨ c = 0x0A ∨ c = 0x0D) : skipWs (c :: s) = skipWs s := by
  rw [skipWs, if_pos h]

theorem skipWs_not_ws (c : Nat) (s : List Nat)
    (h : ¬(c = 0x20 ∨ c = 0x09 ∨ c = 0x0A ∨ c = 0x0D)) : skipWs (c :: s) = c :: s := by
  rw [skipWs, if_neg h]

theorem scanStep_close (t : List Nat) : scanStep (0x22 :: t) = .close := by
  simp [scanStep]

theorem scanStep_lit (c : Nat) (t : List Nat) (h1 : c ≠ 0x22) (h2 : c ≠ 0x5C)
    (h3 : 0x20 ≤ c) : scanStep (c :: t) = .chr c 0 := by
  rw [scanStep.eq_def]
  simp only [if_neg h1, if_neg h2, if_neg (show ¬(c < 0x20) by omega)]

theorem scanStep_bslash (e : Nat) (t : List Nat) :
    scanStep (0x5C :: e :: t) = escapeStep e t := by
  simp [scanStep]

theorem escapeStep_simple (e ch : Nat) (t : List Nat) (he : e ≠ 0x75)
    (h : simpleEscape e = some ch) : escapeStep e t = .chr ch 1 := by
  rw [escapeStep, if_neg he, h]

theorem escapeStep_u (t : List Nat) : escapeStep 0x75 t = uStep t := by
  rw [escapeStep, if_pos rfl]

/-- A `\uXXXX` escape of a non-high-surrogate value scans to that value. -/
theorem uStep_hex_nonsurr (c : Nat) (t : List Nat) (h : c < 0x10000)
    (hns : ¬(0xD800 ≤ c ∧ c ≤ 0xDBFF)) :
    uStep (hex4 c ++ t) = .chr c 5 := by
  simp only [hex4, List.cons_append, List.nil_append]
  unfold uStep
  simp only [hexVal4_hex4 c h]
  rw [if_neg hns]

/-- A `\uXXXX` escape of a high surrogate enters the lookahead. -/
theorem uStep_hex_high (c : Nat) (t : List Nat) (h1 : 0xD800 ≤ c) (h2 : c ≤ 0xDBFF) :
    uStep (hex4 c ++ t) = uLookahead c t := by
  simp only [hex4, List.cons_append, List.nil_append]
  unfold uStep
  simp only [hexVal4_hex4 c (by omega)]
  rw [if_pos ⟨h1, h2⟩]

/-- Without a following `\u`, the lookahead keeps the lone high surrogate. -/
theorem uLookahead_no_u (u : Nat) (t : List Nat) (h : t.take 2 ≠ [0x5C, 0x75]) :
    uLookahead u t = .chr u 5 := by
  unfold uLookahead
  rw [if_neg h]

/-- A following `\u` escape that is not a low surrogate leaves the lone high
surrogate in place. -/
theorem uLookahead_u_nonlow (u u2 : Nat) (t : List Nat) (h2 : u2 < 0x10000)
    (hnl : ¬(0xDC00 ≤ u2 ∧ u2 ≤ 0xDFFF)) :
    uLookahead u (0x5C :: 0x75 :: (hex4 u2 ++ t)) = .chr u 5 := by
  simp only [hex4, List.cons_append, List.nil_append]
  unfold uLookahead
  rw [if_pos (by simp)]
  simp only [hexVal4_hex4 u2 h2]
  rw [if_neg hnl]

/-- A following low-surrogate `\u` escape is combined into one code point. -/
theorem uLookahead_u_low (u u2 : Nat) (t : List Nat)
    (h1 : 0xDC00 ≤ u2) (h2 : u2 ≤ 0xDFFF) :
    uLookahead u (0x5C :: 0x75 :: (hex4 u2 ++ t))
      = .chr (0x10000 + (u - 0xD800) * 0x400 + (u2 - 0xDC00)) 11 := by
  simp only [hex4, List.cons_append, List.nil_append]
  unfold uLookahead
  rw [if_pos (by simp)]
  simp only [hexVal4_hex4 u2 (by omega)]
  rw [if_pos ⟨h1, h2⟩]

theorem scanstringLoop_close (fuel x : Nat) (t : List Nat)
    (h : scanStep (x :: t) = .close) :
    scanstringLoop (fuel + 1) (x :: t) = some ([], t) := by
  rw [scanstringLoop]
  simp only [h]

theorem scanstringLoop_chr (fuel x c extra : Nat) (t tail r : List Nat)
    (h1 : scanStep (x :: t) = .chr c extra)
    (h2 : scanstringLoop fuel (t.drop extra) = some (tail, r)) :
    scanstringLoop (fuel + 1) (x :: t) = some (c :: tail, r) := by
  rw [scanstringLoop]
  simp only [h1, h2]

/-- Every escape produces at least one character. -/
theorem escChar_length_pos (c : Nat) : 1 ≤ (escChar c).length := by
  unfold escChar
  split_ifs <;> simp [hex4]

/-- The escaped body is at least as long as the string. -/
theorem escStr_length_ge (s : List Nat) : s.length ≤ (escStr s).length := by
  induction s with
  | nil => simp [escStr]
  | cons c s' ih =>
    simp only [escStr, List.flatMap_cons, List.length_append, List.length_cons] at ih ⊢
    have := escChar_length_pos c
    omega

theorem hasSurrogatePair_tail (c : Nat) (s : List Nat)
    (h : hasSurrogatePair (c :: s) = false) : hasSurrogatePair s = false := by
  cases s with
  | nil => rfl
  | cons c2 r =>
    rw [hasSurrogatePair] at h
    exact (Bool.or_eq_false_iff.1 h).2

theorem hasSurrogatePair_head (c c2 : Nat) (r : List Nat)
    (h : hasSurrogatePair (c :: c2 :: r) = false) :
    ¬(0xD800 ≤ c ∧ c ≤ 0xDBFF ∧ 0xDC00 ≤ c2 ∧ c2 ≤ 0xDFFF) := by
  rw [hasSurrogatePair] at h
  have := (Bool.or_eq_false_iff.1 h).1
  simp only [Bool.and_eq_false_iff, decide_eq_false_iff_not, not_le] at this
  omega

theorem escChar_printable (c : Nat) (h1 : c ≠ 0x22) (h2 : c ≠ 0x5C) (h3 : c ≠ 0x08)
    (h4 : c ≠ 0x0C) (h5 : c ≠ 0x0A) (h6 : c ≠ 0x0D) (h7 : c ≠ 0x09)
    (h8 : 0x20 ≤ c) (h9 : c ≤ 0x7E) : escChar c = [c] := by
  unfold escChar
  rw [if_neg h1, if_neg h2, if_neg h3, if_neg h4, if_neg h5, if_neg h6, if_neg h7,
    if_pos ⟨h8, h9⟩]

theorem escChar_u (c : Nat) (h1 : c ≠ 0x22) (h2 : c ≠ 0x5C) (h3 : c ≠ 0x08)
    (h4 : c ≠ 0x0C) (h5 : c ≠ 0x0A) (h6 : c ≠ 0x0D) (h7 : c ≠ 0x09)
    (h8 : ¬(0x20 ≤ c ∧ c ≤ 0x7E)) (h9 : c < 0x10000) :
    escChar c = 0x5C :: 0x75 :: hex4 c := by
  unfold escChar
  rw [if_neg h1, if_neg h2, if_neg h3, if_neg h4, if_neg h5, if_neg h6, if_neg h7,
    if_neg h8, if_pos h9]

theorem escChar_astral (c : Nat) (h : 0x10000 ≤ c) :
    escChar c = 0x5C :: 0x75 :: hex4 (0xD800 + (c - 0x10000) / 0x400)
      ++ 0x5C :: 0x75 :: hex4 (0xDC00 + (c - 0x10000) % 0x400) := by
  unfold escChar
  split_ifs <;> first | rfl | (exfalso; omega)

/-- In the escaped stream of a string with no surrogate pair, a pending high
surrogate is never followed by a low-surrogate escape, so the committed
lookahead keeps it as a lone code point. -/
theorem uLookahead_escStr (u : Nat) (s' rest : List Nat)
    (hv : ∀ c ∈ s', c < 0x110000)
    (hnl : ∀ c cs, s' = c :: cs → ¬(0xDC00 ≤ c ∧ c ≤ 0xDFFF)) :
    uLookahead u (escStr s' ++ 0x22 :: rest) = .chr u 5 := by
  cases s' with
  | nil =>
    simp only [escStr, List.flatMap_nil, List.nil_append]
    exact uLookahead_no_u _ _ (by simp)
  | cons c' s'' =>
    have hc' : c' < 0x110000 := hv c' (by simp)
    simp only [escStr, List.flatMap_cons, List.append_assoc]
    by_cases e1 : c' = 0x22
    · subst e1; exact uLookahead_no_u _ _ (by simp [escChar])
    by_cases e2 : c' = 0x5C
    · subst e2; exact uLookahead_no_u _ _ (by simp [escChar])
    by_cases e3 : c' = 0x08
    · subst e3; exact uLookahead_no_u _ _ (by simp [escChar])
    by_cases e4 : c' = 0x0C
    · subst e4; exact uLookahead_no_u _ _ (by simp [escChar])
    by_cases e5 : c' = 0x0A
    · subst e5; exact uLookahead_no_u _ _ (by simp [escChar])
    by_cases e6 : c' = 0x0D
    · subst e6; exact uLookahead_no_u _ _ (by simp [escChar])
    by_cases e7 : c' = 0x09
    · subst e7; exact uLookahead_no_u _ _ (by simp [escChar])
    by_cases e8 : 0x20 ≤ c' ∧ c' ≤ 0x7E
    · rw [escChar_printable c' e1 e2 e3 e4 e5 e6 e7 e8.1 e8.2]
      refine uLookahead_no_u _ _ ?_
      intro heq
      simp at heq
      exact e2 heq.1
    by_cases e9 : c' < 0x10000
    · rw [escChar_u c' e1 e2 e3 e4 e5 e6 e7 e8 e9]
      simp only [List.cons_append]
      exact uLookahead_u_nonlow u c' _ e9 (hnl c' s'' rfl)
    · rw [escChar_astral c' (by omega)]
      simp only [List.cons_append, List.append_assoc]
      exact uLookahead_u_nonlow u _ _ (by omega) (by omega)

set_option maxRecDepth 8192 in
/-- The scanning loop inverts `json.dumps` escaping on strings of valid
code points that contain no high-surrogate immediately followed by a
low-surrogate. -/
theorem scanstringLoop_escStr (s rest : List Nat) (fuel : Nat)
    (hf : s.length < fuel) (hv : ∀ c ∈ s, c < 0x110000)
    (hs : hasSurrogatePair s = false) :
    scanstringLoop fuel (escStr s ++ 0x22 :: rest) = some (s, rest) := by
  induction s generalizing fuel with
  | nil =>
    cases fuel with
    | zero => simp at hf
    | succ f =>
      simp only [escStr, List.flatMap_nil, List.nil_append]
      exact scanstringLoop_close f _ _ (scanStep_close rest)
  | cons c s' ih =>
    cases fuel with
    | zero => simp at hf
    | succ f =>
      have hc : c < 0x110000 := hv c (by simp)
      have hv' : ∀ x ∈ s', x < 0x110000 := fun x hx => hv x (by simp [hx])
      have hs' : hasSurrogatePair s' = false := hasSurrogatePair_tail _ _ hs
      have hrec := ih f (by simp at hf ⊢; omega) hv' hs'
      simp only [escStr, List.flatMap_cons, List.append_assoc] at hrec ⊢
      by_cases e1 : c = 0x22
      · subst e1
        exact scanstringLoop_chr _ _ _ _ _ _ _
          ((scanStep_bslash _ _).trans (escapeStep_simple _ _ _ (by decide) (by decide)))
          hrec
      by_cases e2 : c = 0x5C
      · subst e2
        exact scanstringLoop_chr _ _ _ _ _ _ _
          ((scanStep_bslash _ _).trans (escapeStep_simple _ _ _ (by decide) (by decide)))
          hrec
      by_cases e3 : c = 0x08
      · subst e3
        exact scanstringLoop_chr _ _ _ _ _ _ _
          ((scanStep_bslash _ _).trans (escapeStep_simple _ _ _ (by decide) (by decide)))
          hrec
      by_cases e4 : c = 0x0C
      · subst e4
        exact scanstringLoop_chr _ _ _ _ _ _ _
          ((scanStep_bslash _ _).trans (escapeStep_simple _ _ _ (by decide) (by decide)))
          hrec
      by_cases e5 : c = 0x0A
      · subst e5
        exact scanstringLoop_chr _ _ _ _ _ _ _
          ((scanStep_bslash _ _).trans (escapeStep_simple _ _ _ (by decide) (by decide)))
          hrec
      by_cases e6 : c = 0x0D
      · subst e6
        exact scanstringLoop_chr _ _ _ _ _ _ _
          ((scanStep_bslash _ _).trans (escapeStep_simple _ _ _ (by decide) (by decide)))
          hrec
      by_cases e7 : c = 0x09
      · subst e7
        exact scanstringLoop_chr _ _ _ _ _ _ _
          ((scanStep_bslash _ _).trans (escapeStep_simple _ _ _ (by decide) (by decide)))
          hrec
      by_cases e8 : 0x20 ≤ c ∧ c ≤ 0x7E
      · rw [escChar_printable c e1 e2 e3 e4 e5 e6 e7 e8.1 e8.2]
        exact scanstringLoop_chr _ _ _ _ _ _ _ (scanStep_lit c _ e1 e2 e8.1) hrec
      by_cases e9 : c < 0x10000
      · rw [escChar_u c e1 e2 e3 e4 e5 e6 e7 e8 e9]
        simp only [List.cons_append]
        by_cases ehi : 0xD800 ≤ c ∧ c ≤ 0xDBFF
        · refine scanstringLoop_chr f _ c 5 _ s' rest
            ((scanStep_bslash _ _).trans ((escapeStep_u _).trans
              ((uStep_hex_high c _ ehi.1 ehi.2).trans
                (uLookahead_escStr c s' rest hv' ?_)))) hrec
          intro c2 cs heq hlow
          subst heq
          exact hasSurrogatePair_head c c2 cs hs ⟨ehi.1, ehi.2, hlow.1, hlow.2⟩
        · exact scanstringLoop_chr f _ c 5 _ s' rest
            ((scanStep_bslash _ _).trans ((escapeStep_u _).trans
              (uStep_hex_nonsurr c _ e9 ehi))) hrec
      · rw [escChar_astral c (by omega)]
        simp only [List.cons_append, List.append_assoc]
        refine scanstringLoop_chr f _ c 11 _ s' rest ?_ hrec
        rw [scanStep_bslash, escapeStep_u,
          uStep_hex_high (0xD800 + (c - 0x10000) / 0x400) _ (by omega) (by omega),
          uLookahead_u_low (0xD800 + (c - 0x10000) / 0x400)
            (0xDC00 + (c - 0x10000) % 0x400) _ (by omega) (by omega),
          show 0x10000 + (0xD800 + (c - 0x10000) / 0x400 - 0xD800) * 0x400
              + (0xDC00 + (c - 0x10000) % 0x400 - 0xDC00) = c by omega]

/-- `py_scanstring` inverts `json.dumps` escaping on strings of valid code
points that contain no high-surrogate immediately followed by a
low-surrogate. -/
theorem parseJsonString_escStr (s rest : List Nat)
    (hv : ∀ c ∈ s, c < 0x110000) (hs : hasSurrogatePair s = false) :
    parseJsonString (escStr s ++ 0x22 :: rest) = some (s, rest) := by
  have hlen := escStr_length_ge s
  refine scanstringLoop_escStr s rest _ ?_ hv hs
  simp only [List.length_append, List.length_cons]
  omega

/-- A dumped member list starts with the key's opening quote. -/
theorem dumpsPairs_head_quote (p : List Nat × List Nat) (l : List (List Nat × List Nat)) :
    ∃ t, dumpsPairs (p :: l) = 0x22 :: t := by
  obtain ⟨k, v⟩ := p
  cases l with
  | nil =>
    refine ⟨escStr k ++ 0x22 :: 0x3A :: 0x20 :: 0x22 :: (escStr v ++ [0x22]), ?_⟩
    simp [dumpsPairs, jsonStringLit]
  | cons q l' =>
    refine ⟨escStr k ++ 0x22 :: 0x3A :: 0x20 :: 0x22 ::
      (escStr v ++ 0x22 :: 0x2C :: 0x20 :: dumpsPairs (q :: l')), ?_⟩
    simp [dumpsPairs, jsonStringLit]

/-- No whitespace to skip in front of a dumped member list. -/
theorem skipWs_dumpsPairs (p : List Nat × List Nat) (l : List (List Nat × List Nat))
    (z : List Nat) : skipWs (dumpsPairs (p :: l) ++ z) = dumpsPairs (p :: l) ++ z := by
  obtain ⟨t, ht⟩ := dumpsPairs_head_quote p l
  rw [ht, List.cons_append, skipWs_not_ws _ _ (by omega)]

/-- A dumped object has at least as many characters as members. -/
theorem dumpsPairs_length_ge (d : List (List Nat × List Nat)) :
    d.length ≤ (dumpsPairs d).length := by
  induction d with
  | nil => simp [dumpsPairs]
  | cons p tl ih =>
    obtain ⟨k, v⟩ := p
    cases tl with
    | nil => simp [dumpsPairs, jsonStringLit]
    | cons q tl' =>
      simp only [dumpsPairs, jsonStringLit, List.length_append, List.length_cons,
        List.length_nil] at ih ⊢
      omega

/-- The member loop of the object scanner inverts `dumpsPairs` on a
non-empty dumped member list followed by the closing brace. -/
theorem parseMembers_dumps (d : List (List Nat × List Nat)) (rest : List Nat)
    (fuel : Nat) (hne : d ≠ []) (hfuel : d.length ≤ fuel)
    (hv : ∀ p ∈ d, (∀ c ∈ p.1, c < 0x110000) ∧ ∀ c ∈ p.2, c < 0x110000)
    (hs : ∀ p ∈ d, hasSurrogatePair p.1 = false ∧ hasSurrogatePair p.2 = false) :
    parseMembers fuel (dumpsPairs d ++ 0x7D :: rest) = some (d, rest) := by
  induction d generalizing fuel with
  | nil => exact absurd rfl hne
  | cons p tl ih =>
    obtain ⟨k, v⟩ := p
    have hvk := (hv (k, v) (by simp)).1
    have hvv := (hv (k, v) (by simp)).2
    have hsk := (hs (k, v) (by simp)).1
    have hsv := (hs (k, v) (by simp)).2
    cases fuel with
    | zero => simp at hfuel
    | succ f =>
      cases tl with
      | nil =>
        have hk : parseJsonString (escStr k ++ 0x22 :: (0x3A :: 0x20 :: 0x22 ::
            (escStr v ++ 0x22 :: 0x7D :: rest))) = some (k, 0x3A :: 0x20 :: 0x22 ::
            (escStr v ++ 0x22 :: 0x7D :: rest)) := parseJsonString_escStr k _ hvk hsk
        have hv2 : parseJsonString (escStr v ++ 0x22 :: 0x7D :: rest)
            = some (v, 0x7D :: rest) := parseJsonString_escStr v _ hvv hsv
        simp only [dumpsPairs, jsonStringLit, List.cons_append, List.nil_append,
          List.append_assoc, List.singleton_append]
        rw [parseMembers]
        simp [skipWs, hk, hv2]
      | cons q tl' =>
        have hk : parseJsonString (escStr k ++ 0x22 :: (0x3A :: 0x20 :: 0x22 ::
            (escStr v ++ 0x22 :: 0x2C :: 0x20 :: (dumpsPairs (q :: tl') ++ 0x7D :: rest))))
            = some (k, 0x3A :: 0x20 :: 0x22 ::
              (escStr v ++ 0x22 :: 0x2C :: 0x20 :: (dumpsPairs (q :: tl') ++ 0x7D :: rest)))
            := parseJsonString_escStr k _ hvk hsk
        have hv2 : parseJsonString (escStr v ++ 0x22 :: 0x2C :: 0x20 ::
            (dumpsPairs (q :: tl') ++ 0x7D :: rest))
            = some (v, 0x2C :: 0x20 :: (dumpsPairs (q :: tl') ++ 0x7D :: rest))
            := parseJsonString_escStr v _ hvv hsv
        have hrec := ih f (by simp) (by simp at hfuel ⊢; omega)
          (fun x hx => hv x (List.mem_cons_of_mem _ hx))
          (fun x hx => hs x (List.mem_cons_of_mem _ hx))
        simp only [dumpsPairs, jsonStringLit, List.cons_append, List.nil_append,
          List.append_assoc, List.singleton_append]
        rw [parseMembers]
        simp [skipWs, hk, hv2, skipWs_dumpsPairs, hrec]

/-- `json.loads` inverts `json.dumps` on string dicts with valid code points
and no surrogate pairs. -/
theorem json_loads_dumps (d : List (List Nat × List Nat))
    (hv : ∀ p ∈ d, (∀ c ∈ p.1, c < 0x110000) ∧ ∀ c ∈ p.2, c < 0x110000)
    (hs : ∀ p ∈ d, hasSurrogatePair p.1 = false ∧ hasSurrogatePair p.2 = false) :
    json_loads (json_dumps d) = some d := by
  cases d with
  | nil => rfl
  | cons p tl =>
    obtain ⟨t, ht⟩ := dumpsPairs_head_quote p tl
    have hg := dumpsPairs_length_ge (p :: tl)
    rw [ht] at hg
    have hmem : parseMembers (t.length + 4) (0x22 :: (t ++ [0x7D]))
        = some (p :: tl, []) := by
      have h0 := parseMembers_dumps (p :: tl) [] (t.length + 4) (by simp)
        (by simp only [List.length_cons] at hg ⊢; omega) hv hs
      rw [ht, List.cons_append] at h0
      exact h0
    have hw1 := skipWs_not_ws 0x7B (0x22 :: (t ++ [0x7D])) (by omega)
    have hw2 := skipWs_not_ws 0x22 (t ++ [0x7D]) (by omega)
    rw [json_loads, json_dumps, List.cons_append, ht, List.cons_append]
    simp [hw1, hw2, hmem, skipWs]

/-- Encoding an environ backup always succeeds and is base64 of the dumped
JSON (the dump is pure ASCII, so the UTF-8 encode/decode steps are the
identity). -/
theorem encode_environ_backup_eq (d : List (List Nat × List Nat)) :
    encode_environ_backup d = some (b64encode (json_dumps d)) := by
  simp only [encode_environ_backup, utf8Encode_ascii _ (json_dumps_ascii d)]
  exact utf8Decode_ascii _ (b64encode_ascii _)

/-- C10 (corrected): decode_environ_backup inverts encode_environ_backup on
every dict of strings whose code points are valid (below 0x110000) and in
which no high-surrogate code point is immediately followed by a
low-surrogate code point.  (Without the latter restriction the claim is
false: the JSON scanner recombines such a pair into one astral code
point — see the counterexample.) -/
theorem decode_encode_environ_backup (d : List (List Nat × List Nat))
    (hv : ∀ p ∈ d, (∀ c ∈ p.1, c < 0x110000) ∧ ∀ c ∈ p.2, c < 0x110000)
    (hs : ∀ p ∈ d, hasSurrogatePair p.1 = false ∧ hasSurrogatePair p.2 = false) :
    (encode_environ_backup d).bind decode_environ_backup = some d := by
  have hjd := json_dumps_ascii d
  rw [encode_environ_backup_eq d]
  show decode_environ_backup (b64encode (json_dumps d)) = some d
  simp only [decode_environ_backup,
    asciiEncode_ascii _ (b64encode_ascii _),
    b64decode_b64encode _ (fun b hb => by have := hjd b hb; omega),
    utf8Decode_ascii _ hjd]
  exact json_loads_dumps d hv hs

/-- Witness: the round trip at a concrete one-entry dict ("k" ↦ "v"). -/
theorem decode_encode_environ_backup_witness :
    (∀ p ∈ ([([0x6B], [0x76])] : List (List Nat × List Nat)),
      (∀ c ∈ p.1, c < 0x110000) ∧ ∀ c ∈ p.2, c < 0x110000)
    ∧ (∀ p ∈ ([([0x6B], [0x76])] : List (List Nat × List Nat)),
        hasSurrogatePair p.1 = false ∧ hasSurrogatePair p.2 = false)
    ∧ (encode_environ_backup [([0x6B], [0x76])]).bind decode_environ_backup
        = some [([0x6B], [0x76])] :=
  ⟨by decide, by decide, decode_encode_environ_backup _ (by decide) (by decide)⟩

/-- Counterexample to the unrestricted claim: the value "𐀀" (a
high surrogate followed by a low surrogate, a legal Python str) is encoded
via two adjacent `\uXXXX` escapes, which `json.loads` recombines into the
single code point 0x10000, so the round trip does not restore the dict. -/
theorem decode_encode_environ_backup_cex :
    (encode_environ_backup [([0x6B], [0xD800, 0xDC00])]).bind decode_environ_backup
      = some [([0x6B], [0x10000])]
    ∧ (encode_environ_backup [([0x6B], [0xD800, 0xDC00])]).bind decode_environ_backup
      ≠ some [([0x6B], [0xD800, 0xDC00])] := by
  refine ⟨by decide, by decide⟩
